import Mathlib

/-!
Verification development for the `bier-rust` BIER forwarding daemon.

The Rust sources are shallowly embedded: byte buffers are `List Nat` (each
element a byte value), `u64` bitstring words are `Nat` (theorems that depend
on 64-bitness carry explicit `< 2^64` hypotheses), `IpAddr` values are opaque
`Nat` identifiers, and fallible Rust functions return `Except Err`.
Rust panics (failed `assert_eq!`, out-of-bounds indexing/slicing, `unwrap` on
`Err`) are modelled by the distinguished error value `Err.Panic`, so that
`.ok` results correspond exactly to normal returns of the Rust code.
-/

deriving instance DecidableEq for Except

namespace BierRust

/-- Error type from src/src/lib.rs, extended with `Panic` (modelling Rust
panics: failed assertions, out-of-bounds indexing, `unwrap` failures) and
`Fuel` is not needed because fuel exhaustion is modelled by `Option.none`. -/
inductive Err where
  | Header
  | BiftId
  | BiftParsing
  | NoEntry
  | BitstringLength
  | SliceWrongLength
  | Panic
deriving DecidableEq, Repr

/-- BIFT type codes from src/src/bier.rs (`BiftType`). -/
inductive BiftType where
  | Bier
  | BierTe
deriving DecidableEq, Repr

/-- Bitstring operations from src/src/bier.rs (`BitstringOp`). -/
inductive BitstringOp where
  | And
  | AndNot
deriving DecidableEq, Repr

/-- A bit string: vector of 64-bit words (src/src/bier.rs `Bitstring`).
Words are `Nat`; the Rust type is `Vec<u64>` so faithful instances satisfy
`w < 2^64` for every word `w`. -/
structure Bitstring where
  bitstring : List Nat
deriving DecidableEq, Repr

/-- Bitwise complement of a 64-bit word (`!x` on a Rust `u64`). -/
def u64not (b : Nat) : Nat := (2 ^ 64 - 1) ^^^ b

/-- One word of a `BitstringOp`: `bw_self & bw_other` resp. `bw_self & !bw_other`
from `Bitstring::update`. -/
def wordOp : BitstringOp → Nat → Nat → Nat
  | .And, a, b => a &&& b
  | .AndNot, a, b => a &&& u64not b

/-- `Bitstring::update` (src/src/bier.rs lines 112-122): the receiver's word
vector is replaced by the elementwise combination of `self.bitstring.iter()
.zip(other.bitstring.iter())`, which truncates to the shorter operand. -/
def Bitstring.update (self : Bitstring) (other : Bitstring) (bitop : BitstringOp) : Bitstring :=
  ⟨List.zipWith (fun bw_self bw_other => wordOp bitop bw_self bw_other)
    self.bitstring other.bitstring⟩

/-- `Bitstring::is_valid` (src/src/bier.rs lines 144-146), on the byte length
of the slice: `matches!(slice.len(), 8 | 16 | 32 | 64 | 128 | 256)`. -/
def Bitstring.is_valid (len : Nat) : Bool :=
  len = 8 || len = 16 || len = 32 || len = 64 || len = 128 || len = 256

/-- One (F-BM, next hop) pair of a BIFT entry (src/src/bier.rs `BierEntryPath`). -/
structure BierEntryPath where
  bitstring : Bitstring
  next_hop : Nat
deriving DecidableEq, Repr

/-- One BIFT entry (src/src/bier.rs `BiftEntry`). -/
structure BiftEntry where
  bit : Nat
  paths : List BierEntryPath
deriving DecidableEq, Repr

/-- One BIFT (src/src/bier.rs `Bift`). -/
structure Bift where
  bift_id : Nat
  bift_type : BiftType
  bfr_id : Nat
  entries : List BiftEntry
deriving DecidableEq, Repr

/-- BFR state (src/src/bier.rs `BierState`). -/
structure BierState where
  loopback : Nat
  bifts : List Bift
deriving DecidableEq, Repr

/-- State of the `process_bier` loops: the working bitstring (a clone of the
input, edited in place in the Rust code), the output vector, and the global
`bfr_idx` counter, which is NOT reset between words of the outer loop. -/
structure EngineSt where
  ws : List Nat
  out : List (Bitstring × Option Nat)
  bfr_idx : Nat
deriving DecidableEq, Repr

/-- The inner `while bitstring_word > 0` loop of `BierState::process_bier`
(src/src/bier.rs lines 41-73), working on the word at index `wi`
(`bitstring_number_u64 - 1 - idx_u64_word` in the source).  The loop condition
re-reads the word each iteration; this is equivalent to the source, which keeps
the word in a local that is rewritten (line 69) after every processing step.
Out-of-range index reads panic in Rust and yield `Err.Panic` here; the
`assert_eq!(bift_entry.bit - 1, bfr_idx as u64)` failure is also `Err.Panic`.
The first component of the fuel argument decreases; `none` means the fuel ran
out before the loop exited. -/
def innerLoop (bift : Bift) (wi : Nat) : Nat → EngineSt → Option (Except Err EngineSt)
  | 0, _ => none
  | fuel + 1, st =>
    match st.ws[wi]? with
    | none => some (.error .Panic)
    | some bitstring_word =>
      if bitstring_word = 0 then some (.ok st)
      else
        if (bitstring_word >>> (st.bfr_idx % 64)) &&& 1 = 1 then
          match bift.entries[st.bfr_idx]? with
          | none => some (.error .NoEntry)
          | some bift_entry =>
            if bift_entry.bit = st.bfr_idx + 1 then
              match bift_entry.paths[0]? with
              | none => some (.error .NoEntry)
              | some bier_entry_path =>
                let dst_bitstring := Bitstring.update ⟨st.ws⟩ bier_entry_path.bitstring .And
                let nxt_hop_ip : Option Nat :=
                  if st.bfr_idx + 1 = bift.bfr_id then none else some bier_entry_path.next_hop
                innerLoop bift wi fuel
                  ⟨(Bitstring.update ⟨st.ws⟩ bier_entry_path.bitstring .AndNot).bitstring,
                   st.out ++ [(dst_bitstring, nxt_hop_ip)], st.bfr_idx + 1⟩
            else some (.error .Panic)
        else innerLoop bift wi fuel ⟨st.ws, st.out, st.bfr_idx + 1⟩

/-- Fuel that always suffices for one inner loop (proved in
`innerLoop_fuel_sufficient`): one iteration per remaining BIFT entry plus one
full 64-bit scan plus the final returning step. -/
def innerFuel (bift : Bift) : Nat := bift.entries.length + 65

/-- The outer `for idx_u64_word in 0..bitstring_number_u64` loop of
`BierState::process_bier` (src/src/bier.rs lines 37-74); `n` is
`bitstring_number_u64`, captured once before the loop. -/
def outerLoop (bift : Bift) (n : Nat) : List Nat → EngineSt → Option (Except Err EngineSt)
  | [], st => some (.ok st)
  | idx_u64_word :: rest, st =>
    match innerLoop bift (n - 1 - idx_u64_word) (innerFuel bift) st with
    | none => none
    | some (.error e) => some (.error e)
    | some (.ok st1) => outerLoop bift n rest st1

/-- `BierState::process_bier` (src/src/bier.rs lines 15-77) as a fuelled run;
`none` means fuel exhaustion (shown impossible for 64-bit words in
`process_bier_terminates`).  The `bift_id = 0` case: `bift_id - 1` underflows
`usize`; in a release build it wraps to a huge index, `get` fails, and the
function returns `Err(Error::BiftId)`, which is the behaviour modelled here.
The two `assert_eq!` checks at lines 28 and 31 panic on failure. -/
def processBierAux (s : BierState) (original_bitstring : Bitstring) (bift_id : Nat) :
    Option (Except Err (List (Bitstring × Option Nat))) :=
  if bift_id = 0 then some (.error .BiftId)
  else
    match s.bifts[bift_id - 1]? with
    | none => some (.error .BiftId)
    | some bift =>
      if bift.bift_id = bift_id then
        if bift.bift_type = .Bier then
          match outerLoop bift original_bitstring.bitstring.length
              (List.range original_bitstring.bitstring.length)
              ⟨original_bitstring.bitstring, [], 0⟩ with
          | none => none
          | some (.error e) => some (.error e)
          | some (.ok st) => some (.ok st.out)
        else some (.error .Panic)
      else some (.error .Panic)

/-- `BierState::process_bier`: the fuelled run with the canonical fuel. -/
def BierState.process_bier (s : BierState) (original_bitstring : Bitstring) (bift_id : Nat) :
    Except Err (List (Bitstring × Option Nat)) :=
  (processBierAux s original_bitstring bift_id).getD (.error .Panic)

/-- Big-endian bytes of a `u64` (`u64::to_be_bytes`, as produced by the
`item.to_be()` + raw-pointer reinterpretation idiom of the source). -/
def u64ToBeBytes (w : Nat) : List Nat :=
  [(w >>> 56) &&& 255, (w >>> 48) &&& 255, (w >>> 40) &&& 255, (w >>> 32) &&& 255,
   (w >>> 24) &&& 255, (w >>> 16) &&& 255, (w >>> 8) &&& 255, w &&& 255]

/-- Big-endian bytes of a `u32` (`u32::to_be_bytes`). -/
def u32ToBeBytes (v : Nat) : List Nat :=
  [(v >>> 24) &&& 255, (v >>> 16) &&& 255, (v >>> 8) &&& 255, v &&& 255]

/-- Big-endian `u16` read at offset `o` (`get_unchecked_be_u16`, src/src/lib.rs). -/
def beU16 (l : List Nat) (o : Nat) : Nat :=
  (l.getD o 0) * 256 + l.getD (o + 1) 0

/-- Big-endian `u32` read at offset `o` (`get_unchecked_be_u32`, src/src/lib.rs). -/
def beU32 (l : List Nat) (o : Nat) : Nat :=
  ((((l.getD o 0) * 256 + l.getD (o + 1) 0) * 256 + l.getD (o + 2) 0) * 256 + l.getD (o + 3) 0)

/-- Big-endian `u64` from 8 bytes (`u64::from_be_bytes`). -/
def u64FromBeBytes (b0 b1 b2 b3 b4 b5 b6 b7 : Nat) : Nat :=
  ((((((b0 * 256 + b1) * 256 + b2) * 256 + b3) * 256 + b4) * 256 + b5) * 256 + b6) * 256 + b7

/-- Serialize a word vector to consecutive big-endian 8-byte words (the
bitstring wire format used by `update_header_from_self` and `to_slice`). -/
def wordsToBytesBe (ws : List Nat) : List Nat :=
  (ws.map u64ToBeBytes).flatten

/-- Parse consecutive 8-byte chunks as big-endian `u64` words
(`slice[12..].chunks(8).map(|chunk| u64::from_be_bytes(chunk.try_into().unwrap()))`
in src/src/header.rs `get_bitstring`): a trailing chunk shorter than 8 bytes
makes `try_into` fail and the `unwrap` panic, modelled by `none`. -/
def bytesToWordsBe : List Nat → Option (List Nat)
  | [] => some []
  | b0 :: b1 :: b2 :: b3 :: b4 :: b5 :: b6 :: b7 :: rest =>
    (bytesToWordsBe rest).map (fun ws => u64FromBeBytes b0 b1 b2 b3 b4 b5 b6 b7 :: ws)
  | _ => none

/-- `BIER_HEADER_WITHOUT_BITSTRING_LENGTH` (src/src/header.rs). -/
def BIER_HEADER_WITHOUT_BITSTRING_LENGTH : Nat := 12

/-- `BIER_MINIMUM_HEADER_LENGTH` (src/src/header.rs). -/
def BIER_MINIMUM_HEADER_LENGTH : Nat := 20

/-- `Bitstring::update_header_from_self` (src/src/bier.rs lines 124-142).
The guard compares the header length against `12 + self.bitstring.len()`
(the WORD count, as written in the source), while the subsequent slice
`header[12 .. 12 + len*8]` needs `12 + 8 * len` bytes; an out-of-range slice
panics (`Err.Panic`). On success the words are written big-endian at offset
12 and the rest of the buffer is untouched. -/
def Bitstring.update_header_from_self (self : Bitstring) (header : List Nat) :
    Except Err (List Nat) :=
  if header.length < BIER_HEADER_WITHOUT_BITSTRING_LENGTH + self.bitstring.length then
    .error .BitstringLength
  else if header.length < BIER_HEADER_WITHOUT_BITSTRING_LENGTH + self.bitstring.length * 8 then
    .error .Panic
  else
    .ok (header.take 12 ++ wordsToBytesBe self.bitstring ++
      header.drop (12 + self.bitstring.length * 8))

/-- BIER header (src/src/header.rs `BierHeader`). -/
structure BierHeader where
  bift_id : Nat
  tc : Nat
  s : Bool
  ttl : Nat
  nibble : Nat
  ver : Nat
  bsl : Nat
  entropy : Nat
  oam : Nat
  dscp : Nat
  rsv : Nat
  proto : Nat
  bfr_id : Nat
  bitstring : Bitstring
deriving DecidableEq, Repr

/-- `get_bitstring` (src/src/header.rs lines 201-207): chunk the bytes after
offset 12 into big-endian `u64` words, then convert the `Vec<u64>` with the
infallible `From<Vec<u64>> for Bitstring` impl (src/src/bier.rs lines
173-177), which performs NO width validation; only a short trailing chunk
panics (via `unwrap`). -/
def get_bitstring (slice : List Nat) : Except Err Bitstring :=
  match bytesToWordsBe (slice.drop 12) with
  | none => .error .Panic
  | some ws => .ok ⟨ws⟩

/-- `get_bift_id` (src/src/header.rs). -/
def get_bift_id (slice : List Nat) : Nat := (beU32 slice 0 &&& 0xfffff000) >>> 12

/-- `get_tc` (src/src/header.rs). -/
def get_tc (slice : List Nat) : Nat := (slice.getD 2 0 &&& 0x0e) >>> 1

/-- `get_s` (src/src/header.rs). -/
def get_s (slice : List Nat) : Bool := slice.getD 2 0 &&& 1 = 1

/-- `get_ttl` (src/src/header.rs). -/
def get_ttl (slice : List Nat) : Nat := slice.getD 3 0

/-- `get_nibble` (src/src/header.rs). -/
def get_nibble (slice : List Nat) : Nat := (slice.getD 4 0 &&& 0xf0) >>> 4

/-- `get_version` (src/src/header.rs). -/
def get_version (slice : List Nat) : Nat := slice.getD 4 0 &&& 0xf

/-- `get_bsl` (src/src/header.rs); the same expression is computed inline at
line 31 of `from_slice` to size the bitstring. -/
def get_bsl (slice : List Nat) : Nat := (slice.getD 5 0 &&& 0xf0) >>> 4

/-- `get_entropy` (src/src/header.rs). -/
def get_entropy (slice : List Nat) : Nat := beU32 slice 4 &&& 0xfffff

/-- `get_oam` (src/src/header.rs). -/
def get_oam (slice : List Nat) : Nat := (slice.getD 8 0 &&& 0xc0) >>> 6

/-- `get_rsv` (src/src/header.rs). -/
def get_rsv (slice : List Nat) : Nat := (slice.getD 8 0 &&& 0x30) >>> 4

/-- `get_dscp` (src/src/header.rs). -/
def get_dscp (slice : List Nat) : Nat := (beU16 slice 8 &&& 0xfc0) >>> 6

/-- `get_proto` (src/src/header.rs). -/
def get_proto (slice : List Nat) : Nat := slice.getD 9 0 &&& 0x3f

/-- `get_bifr_id` (src/src/header.rs). -/
def get_bifr_id (slice : List Nat) : Nat := beU16 slice 10

/-- The `bitstring_length` computation of `from_slice` (src/src/header.rs
lines 31-34): `1 << (bsl + 5)` bits, divided by 8 for bytes. -/
def bitstringLength (slice : List Nat) : Nat := (1 <<< (get_bsl slice + 5)) / 8

/-- The `let slice = &slice[..12 + bitstring_length]` rebinding of
`from_slice` (src/src/header.rs line 39). -/
def bslSlice (slice : List Nat) : List Nat :=
  slice.take (BIER_HEADER_WITHOUT_BITSTRING_LENGTH + bitstringLength slice)

/-- `BierHeader::from_slice` (src/src/header.rs lines 26-59) with the field
extractors of lines 149-207. -/
def BierHeader.from_slice (slice : List Nat) : Except Err BierHeader :=
  if slice.length < BIER_MINIMUM_HEADER_LENGTH then .error .Header
  else if slice.length < BIER_HEADER_WITHOUT_BITSTRING_LENGTH + bitstringLength slice then
    .error .Header
  else
    match get_bitstring (bslSlice slice) with
    | .error e => .error e
    | .ok bs =>
      .ok { bift_id := get_bift_id (bslSlice slice)
            tc := get_tc (bslSlice slice)
            s := get_s (bslSlice slice)
            ttl := get_ttl (bslSlice slice)
            nibble := get_nibble (bslSlice slice)
            ver := get_version (bslSlice slice)
            bsl := get_bsl (bslSlice slice)
            entropy := get_entropy (bslSlice slice)
            oam := get_oam (bslSlice slice)
            rsv := get_rsv (bslSlice slice)
            dscp := get_dscp (bslSlice slice)
            proto := get_proto (bslSlice slice)
            bfr_id := get_bifr_id (bslSlice slice)
            bitstring := bs }

/-- `BierHeader::header_length` (src/src/header.rs lines 106-108). -/
def BierHeader.header_length (h : BierHeader) : Nat :=
  BIER_HEADER_WITHOUT_BITSTRING_LENGTH + h.bitstring.bitstring.length * 8

/-- The first packed `u32` of `BierHeader::to_slice` (src/src/header.rs lines
66-69); `u32` addition wraps, hence the `% 2^32`. -/
def packWord0 (h : BierHeader) : Nat :=
  ((h.bift_id <<< 12) + (h.tc <<< 9) + ((if h.s then 1 else 0) <<< 8) + h.ttl) % 2 ^ 32

/-- The second packed `u32` of `BierHeader::to_slice` (lines 73-76). -/
def packWord1 (h : BierHeader) : Nat :=
  ((h.nibble <<< 28) + (h.ver <<< 24) + (h.bsl <<< 20) + h.entropy) % 2 ^ 32

/-- The third packed `u32` of `BierHeader::to_slice` (lines 80-84). -/
def packWord2 (h : BierHeader) : Nat :=
  ((h.oam <<< 30) + (h.rsv <<< 28) + (h.dscp <<< 22) + (h.proto <<< 16) + h.bfr_id) % 2 ^ 32

/-- `BierHeader::to_slice` (src/src/header.rs lines 61-96): three `u32`
values packed from the fields, written big-endian, followed by the bitstring
words big-endian; bytes beyond `header_length` are left as in the destination
buffer. -/
def BierHeader.to_slice (h : BierHeader) (slice : List Nat) : Except Err (List Nat) :=
  if slice.length < h.header_length then .error .SliceWrongLength
  else
    .ok (u32ToBeBytes (packWord0 h) ++ u32ToBeBytes (packWord1 h) ++ u32ToBeBytes (packWord2 h) ++
      wordsToBytesBe h.bitstring.bitstring ++ slice.drop h.header_length)

/-- Control envelope (src/src/api.rs `CommunicationInfo`). -/
structure CommunicationInfo where
  bift_id : Nat
  proto : Nat
  bitstring : List Nat
  payload : List Nat
deriving DecidableEq, Repr

/-- `CommunicationInfo::from_slice` (src/src/api.rs lines 15-33).  The three
big-endian reads happen before any length check with `get_unchecked` (for
buffers shorter than 8 bytes the Rust code reads out of bounds; theorems
about this function therefore assume a length of at least 8). -/
def CommunicationInfo.from_slice (slice : List Nat) : Except Err CommunicationInfo :=
  let bift_id := beU32 slice 0
  let proto := beU16 slice 4
  let bitstring_length := beU16 slice 6
  if slice.length < 4 + 2 + 2 + bitstring_length then .error .SliceWrongLength
  else
    .ok { bift_id
          proto
          bitstring := (slice.drop 8).take bitstring_length
          payload := slice.drop (8 + bitstring_length) }

/-- Word `i` of a word vector, `0` when out of range. -/
def wd (ws : List Nat) (i : Nat) : Nat := (ws[i]?).getD 0

/-- Bit `k` of word `i` of a word vector (so the BFR-ID `64*(len-1-i) + k + 1`
under the bit-1-at-LSB-of-last-word convention). -/
def bitAt (ws : List Nat) (i k : Nat) : Bool := (wd ws i).testBit k

/-- All words of the vector fit in a `u64`. -/
def wsBounded (ws : List Nat) : Prop := ∀ i, wd ws i < 2 ^ 64

/-- Bit `(i, k)` of the bitwise OR of the destination bitstrings of an
engine output list. -/
def orBit (out : List (Bitstring × Option Nat)) (i k : Nat) : Bool :=
  out.any fun o => bitAt o.1.bitstring i k

/-- Number of output pairs with `next_hop = None` (local delivery copies). -/
def noneCount (out : List (Bitstring × Option Nat)) : Nat :=
  out.countP fun o => o.2.isNone

/-- The bitwise OR of the destination bitstrings of `out` equals `B`:
claim C1's coverage property, stated per (word, bit) position. -/
def coversExactly (B : Bitstring) (out : List (Bitstring × Option Nat)) : Prop :=
  ∀ i k, orBit out i k = bitAt B.bitstring i k

/-- The destination bitstrings of `out` are pairwise disjoint: no (word, bit)
position is set in two different output pairs. -/
def outputsDisjoint (out : List (Bitstring × Option Nat)) : Prop :=
  List.Pairwise
    (fun p q => ∀ i k, bitAt p.1.bitstring i k = true → bitAt q.1.bitstring i k = false) out

/-- Every set bit of `B` is set in exactly one output destination bitstring. -/
def eachSetBitOnce (B : Bitstring) (out : List (Bitstring × Option Nat)) : Prop :=
  ∀ i k, bitAt B.bitstring i k = true →
    (out.countP fun o => bitAt o.1.bitstring i k) = 1

/-- Facts about any local-delivery pair of the output, for a single-word input
`B` processed against `bift`: the local BFR's own bit is set in the input, and
the pair's destination bitstring is contained in the input masked by the local
entry's first-path F-BM. -/
def localPairFacts (bift : Bift) (B : Bitstring) (out : List (Bitstring × Option Nat)) : Prop :=
  ∀ o ∈ out, o.2 = none →
    bitAt B.bitstring 0 (bift.bfr_id - 1) = true ∧
    ∃ e, bift.entries[bift.bfr_id - 1]? = some e ∧
    ∃ p, e.paths[0]? = some p ∧
      (∀ k, bitAt o.1.bitstring 0 k = true →
        bitAt B.bitstring 0 k = true ∧ bitAt p.bitstring.bitstring 0 k = true) ∧
      (∀ i, i ≠ 0 → wd o.1.bitstring i = 0)

/-- Claim C10's characterization of `Bitstring::update`: the result has
exactly `min` of the two word counts, each kept word is the pairwise
combination, and the receiver's words beyond the shorter operand are
discarded (reading them yields nothing, i.e. the default). -/
def updateTruncSpec (a b : Bitstring) (op : BitstringOp) : Prop :=
  (a.update b op).bitstring.length = min a.bitstring.length b.bitstring.length ∧
  ∀ i : Nat,
    wd (a.update b op).bitstring i =
      if i < min a.bitstring.length b.bitstring.length then
        wordOp op (wd a.bitstring i) (wd b.bitstring i)
      else 0

/-- Claim C9's characterization of the control-envelope parse, for buffers
long enough (≥ 8 bytes) for the unchecked header reads to be in bounds. -/
def envelopeParseSpec (slice : List Nat) : Prop :=
  (CommunicationInfo.from_slice slice = .error .SliceWrongLength ↔
    slice.length < 8 + beU16 slice 6) ∧
  ∀ ci, CommunicationInfo.from_slice slice = .ok ci →
    ci.bift_id = beU32 slice 0 ∧ ci.proto = beU16 slice 4 ∧
    ci.bitstring = (slice.drop 8).take (beU16 slice 6) ∧
    ci.payload = slice.drop (8 + beU16 slice 6)

/-- Claim C5's round-trip property: serializing a parsed header into any
large-enough buffer succeeds, reproduces the first `header_length` bytes of
the original buffer, and parsing the produced bytes gives the header back. -/
def headerRoundTrip (buf out0 : List Nat) (h : BierHeader) : Prop :=
  ∃ r, h.to_slice out0 = .ok r ∧
    r.take h.header_length = buf.take h.header_length ∧
    BierHeader.from_slice r = .ok h

/-- The five-entry example BIFT of the unit tests in src/src/bier.rs
(`get_dummy_config_json`), with opaque stand-ins 10, 11, 12 for the three
next-hop addresses. -/
def dummyBift : Bift :=
  ⟨1, .Bier, 1,
    [⟨1, [⟨⟨[1]⟩, 10⟩]⟩,
     ⟨2, [⟨⟨[26]⟩, 11⟩]⟩,
     ⟨3, [⟨⟨[28]⟩, 12⟩]⟩,
     ⟨4, [⟨⟨[26]⟩, 11⟩, ⟨⟨[28]⟩, 12⟩]⟩,
     ⟨5, [⟨⟨[26]⟩, 11⟩, ⟨⟨[28]⟩, 12⟩]⟩]⟩

/-- The BFR state of the unit tests in src/src/bier.rs, with 100 standing in
for the loopback address. -/
def dummyState : BierState := ⟨100, [dummyBift]⟩

/-- The engine output for the full bitstring `11111` against `dummyState`
(scenario S1 of the spec). -/
def dummyOut : List (Bitstring × Option Nat) :=
  [(⟨[1]⟩, none), (⟨[26]⟩, some 11), (⟨[4]⟩, some 12)]

/-- A BIFT satisfying claim C1's preconditions (type BIER, entries covering
the set bits of the input, each entry with one path) on which `process_bier`
nevertheless fails: the single entry's F-BM is all-zero, so the set bit is
never cleared and `bfr_idx` runs past the entry table into `Err::NoEntry`. -/
def noClearBift : Bift := ⟨1, .Bier, 1, [⟨1, [⟨⟨[0]⟩, 42⟩]⟩]⟩

/-- The BFR state holding `noClearBift`. -/
def noClearState : BierState := ⟨0, [noClearBift]⟩

/-- A BIFT on which the local bit (`bfr_id = 2`) is set in the input `11` but
is swallowed by entry 1's F-BM `11`, so no local-delivery pair is emitted:
counterexample to claim C3's "iff". -/
def swallowBift : Bift := ⟨1, .Bier, 2, [⟨1, [⟨⟨[3]⟩, 10⟩]⟩, ⟨2, [⟨⟨[2]⟩, 11⟩]⟩]⟩

/-- The BFR state holding `swallowBift`. -/
def swallowState : BierState := ⟨0, [swallowBift]⟩

/-- The 20-byte example BIER header of the unit tests in src/src/header.rs
(`get_dummy_bier_header_slice`). -/
def dummyHdrBytes : List Nat :=
  [0, 0, 0x43, 7, 0x51, 0x10, 0, 3, 0xf1, 4, 0, 0x11, 0, 0, 0, 0, 0, 0, 0xff, 0xff]

/-- The header parsed from `dummyHdrBytes` (field values as asserted by the
unit test `test_bier_header_from_bytes`). -/
def dummyHdr : BierHeader :=
  { bift_id := 4, tc := 1, s := true, ttl := 7, nibble := 5, ver := 1, bsl := 1,
    entropy := 3, oam := 3, dscp := 4, rsv := 3, proto := 4, bfr_id := 0x11,
    bitstring := ⟨[0xffff]⟩ }

/-- The concrete control envelope bytes of scenario S4. -/
def s4Bytes : List Nat :=
  [0, 0, 0, 1, 0, 36, 0, 8, 0, 0, 0, 0, 0, 0, 0, 0xff, 0, 4, 1, 2, 5]

/-- Modelled from the source `Graph::get_bier_config`
(src/src/bin/bier-config.rs lines 150-174): for each `bfr_id` in
`0..nb_nodes` it pushes a `BiftEntry` whose `bit` field is `bfr_id` itself
(`bit: bfr_id as u64`), with one path per computed next hop.  The next-hop
sets come from the `dijkstra` module, which is declared by the binary but not
present under src/, so the per-destination next-hop lists, the F-BM string of
a path and the loopback map are abstracted as parameters; the `bit` field,
which is what the indexing claim is about, does not depend on them. -/
def getBierConfigEntries (next_hop : List (List Nat)) (fbm : Nat → Nat → Bitstring)
    (loopback : Nat → Nat) : List BiftEntry :=
  (List.range next_hop.length).map fun bfr_id =>
    { bit := bfr_id
      paths := (next_hop.getD bfr_id []).map fun h =>
        { bitstring := fbm bfr_id h, next_hop := loopback h } }

/-! Bridge lemmas about words and bits. -/

theorem wd_large (ws : List Nat) (i : Nat) (h : ws.length ≤ i) : wd ws i = 0 := by
  simp [wd, List.getElem?_eq_none h]

theorem wd_zipWith (g : Nat → Nat → Nat) (a b : List Nat) (i : Nat) :
    wd (List.zipWith g a b) i =
      if i < min a.length b.length then g (wd a i) (wd b i) else 0 := by
  by_cases hi : i < min a.length b.length
  · have hia : i < a.length := lt_of_lt_of_le hi (Nat.min_le_left _ _)
    have hib : i < b.length := lt_of_lt_of_le hi (Nat.min_le_right _ _)
    rw [if_pos hi]
    unfold wd
    rw [List.getElem?_zipWith, List.getElem?_eq_getElem hia, List.getElem?_eq_getElem hib]
    rfl
  · rw [if_neg hi]
    apply wd_large
    rw [List.length_zipWith]
    omega

theorem testBit_false_of_bounded {a : Nat} (h : a < 2 ^ 64) {k : Nat} (hk : 64 ≤ k) :
    a.testBit k = false :=
  Nat.testBit_lt_two_pow (lt_of_lt_of_le h (Nat.pow_le_pow_right (by norm_num) hk))

theorem land_lt_two_pow {a : Nat} (b : Nat) (h : a < 2 ^ 64) : a &&& b < 2 ^ 64 := by
  have hb : ∀ i, (a &&& b).testBit i = ((a &&& b) % 2 ^ 64).testBit i := by
    intro i
    rw [Nat.testBit_mod_two_pow]
    by_cases hi : i < 64
    · simp [hi]
    · simp [hi, Nat.testBit_land]
      intro hcon
      simp [testBit_false_of_bounded h (Nat.le_of_not_lt hi)] at hcon
  have := Nat.eq_of_testBit_eq hb
  have hm : (a &&& b) % 2 ^ 64 < 2 ^ 64 := Nat.mod_lt _ (by positivity)
  omega

theorem word_test_iff (w k : Nat) : ((w >>> k) &&& 1 = 1) ↔ w.testBit k = true := by
  rw [Nat.and_one_is_mod, Nat.shiftRight_eq_div_pow, Nat.testBit_to_div_mod]
  simp

theorem wordOp_and_bit (a b k : Nat) :
    (wordOp .And a b).testBit k = (a.testBit k && b.testBit k) := by
  simp [wordOp, Nat.testBit_land]

theorem u64not_testBit (b k : Nat) :
    (u64not b).testBit k = (decide (k < 64) ^^ b.testBit k) := by
  rw [u64not, Nat.testBit_xor, Nat.testBit_two_pow_sub_one]

theorem wordOp_andNot_bit_lt (a b : Nat) {k : Nat} (hk : k < 64) :
    (wordOp .AndNot a b).testBit k = (a.testBit k && !b.testBit k) := by
  simp [wordOp, Nat.testBit_land, u64not_testBit, hk]

theorem wordOp_andNot_bit_ge (a b : Nat) {k : Nat} (hk : 64 ≤ k) :
    (wordOp .AndNot a b).testBit k = (a.testBit k && b.testBit k) := by
  simp [wordOp, Nat.testBit_land, u64not_testBit, Nat.not_lt_of_le hk]

theorem wordOp_lt (op : BitstringOp) {a : Nat} (b : Nat) (h : a < 2 ^ 64) :
    wordOp op a b < 2 ^ 64 := by
  cases op <;> simp [wordOp] <;> exact land_lt_two_pow _ h

theorem wd_zero_iff (ws : List Nat) (i : Nat) :
    wd ws i = 0 ↔ ∀ k, bitAt ws i k = false := by
  constructor
  · intro h k
    simp [bitAt, h]
  · intro h
    exact Nat.eq_of_testBit_eq fun k => by simpa [Nat.zero_testBit] using h k

theorem wordOp_test_imp (op : BitstringOp) (a b : Nat) (k : Nat)
    (h : (wordOp op a b).testBit k = true) : a.testBit k = true := by
  cases op
  · rw [wordOp_and_bit] at h
    simp at h
    exact h.1
  · by_cases hk : k < 64
    · rw [wordOp_andNot_bit_lt a b hk] at h
      simp at h
      exact h.1
    · rw [wordOp_andNot_bit_ge a b (Nat.le_of_not_lt hk)] at h
      simp at h
      exact h.1

theorem bitAt_zip_lt (op : BitstringOp) (ws f : List Nat) {i : Nat} (k : Nat)
    (hi : i < min ws.length f.length) :
    bitAt (List.zipWith (fun a b => wordOp op a b) ws f) i k =
      (wordOp op (wd ws i) (wd f i)).testBit k := by
  simp [bitAt, wd_zipWith, hi]

theorem bitAt_zip_ge (op : BitstringOp) (ws f : List Nat) {i : Nat} (k : Nat)
    (hi : ¬ i < min ws.length f.length) :
    bitAt (List.zipWith (fun a b => wordOp op a b) ws f) i k = false := by
  simp [bitAt, wd_zipWith, hi]

theorem bitAt_zip_imp (op : BitstringOp) (ws f : List Nat) (i k : Nat)
    (h : bitAt (List.zipWith (fun a b => wordOp op a b) ws f) i k = true) :
    bitAt ws i k = true := by
  by_cases hi : i < min ws.length f.length
  · rw [bitAt_zip_lt op ws f k hi] at h
    exact wordOp_test_imp op _ _ k h
  · rw [bitAt_zip_ge op ws f k hi] at h
    cases h

theorem zip_bounded (op : BitstringOp) (ws f : List Nat) (hb : wsBounded ws) :
    wsBounded (List.zipWith (fun a b => wordOp op a b) ws f) := by
  intro i
  rw [wd_zipWith]
  by_cases hi : i < min ws.length f.length
  · rw [if_pos hi]
    exact wordOp_lt op _ (hb i)
  · rw [if_neg hi]
    positivity

/-! Case analysis of one step of the inner loop of `process_bier`. -/

theorem innerLoop_succ_cases {bift : Bift} {wi fuel : Nat} {st r : EngineSt}
    (h : innerLoop bift wi (fuel + 1) st = some (.ok r)) :
    ∃ w, st.ws[wi]? = some w ∧
      ((w = 0 ∧ r = st) ∨
       (w ≠ 0 ∧
        ((¬((w >>> (st.bfr_idx % 64)) &&& 1 = 1) ∧
          innerLoop bift wi fuel ⟨st.ws, st.out, st.bfr_idx + 1⟩ = some (.ok r)) ∨
         (((w >>> (st.bfr_idx % 64)) &&& 1 = 1) ∧
          ∃ e, bift.entries[st.bfr_idx]? = some e ∧ e.bit = st.bfr_idx + 1 ∧
          ∃ p, e.paths[0]? = some p ∧
            innerLoop bift wi fuel
              ⟨List.zipWith (fun a b => wordOp .AndNot a b) st.ws p.bitstring.bitstring,
               st.out ++ [(⟨List.zipWith (fun a b => wordOp .And a b) st.ws p.bitstring.bitstring⟩,
                 if st.bfr_idx + 1 = bift.bfr_id then none else some p.next_hop)],
               st.bfr_idx + 1⟩ = some (.ok r))))) := by
  rw [innerLoop] at h
  rcases hw : st.ws[wi]? with _ | w
  · rw [hw] at h
    simp at h
  · rw [hw] at h
    simp only [] at h
    refine ⟨w, rfl, ?_⟩
    by_cases h0 : w = 0
    · rw [if_pos h0] at h
      simp at h
      exact Or.inl ⟨h0, h.symm⟩
    · rw [if_neg h0] at h
      refine Or.inr ⟨h0, ?_⟩
      by_cases ht : (w >>> (st.bfr_idx % 64)) &&& 1 = 1
      · rw [if_pos ht] at h
        rcases he : bift.entries[st.bfr_idx]? with _ | e
        · rw [he] at h
          simp at h
        · rw [he] at h
          simp only [] at h
          by_cases hbit : e.bit = st.bfr_idx + 1
          · rw [if_pos hbit] at h
            rcases hp : e.paths[0]? with _ | p
            · rw [hp] at h
              simp at h
            · rw [hp] at h
              exact Or.inr ⟨ht, e, rfl, hbit, p, hp, h⟩
          · rw [if_neg hbit] at h
            simp at h
      · rw [if_neg ht] at h
        exact Or.inl ⟨ht, h⟩

theorem innerLoop_ok_read {bift : Bift} {wi fuel : Nat} {st r : EngineSt}
    (h : innerLoop bift wi fuel st = some (.ok r)) : ∃ w, st.ws[wi]? = some w := by
  cases fuel with
  | zero => simp [innerLoop] at h
  | succ fuel =>
    rcases innerLoop_succ_cases h with ⟨w, hw, _⟩
    exact ⟨w, hw⟩

theorem innerLoop_ok_subset {bift : Bift} {wi : Nat} :
    ∀ fuel (st r : EngineSt), innerLoop bift wi fuel st = some (.ok r) →
      ∀ i k, bitAt r.ws i k = true → bitAt st.ws i k = true := by
  intro fuel
  induction fuel with
  | zero => intro st r h; simp [innerLoop] at h
  | succ fuel ih =>
    intro st r h i k hbit
    rcases innerLoop_succ_cases h with ⟨w, hw, hcase⟩
    rcases hcase with ⟨_, rfl⟩ | ⟨hw0, hskip | hproc⟩
    · exact hbit
    · exact ih _ _ hskip.2 i k hbit
    · rcases hproc with ⟨htest, e, he, hbite, p, hp, hrec⟩
      exact bitAt_zip_imp .AndNot _ _ i k (ih _ _ hrec i k hbit)

theorem innerLoop_ok_exit {bift : Bift} {wi : Nat} :
    ∀ fuel (st r : EngineSt), innerLoop bift wi fuel st = some (.ok r) →
      r.ws[wi]? = some 0 := by
  intro fuel
  induction fuel with
  | zero => intro st r h; simp [innerLoop] at h
  | succ fuel ih =>
    intro st r h
    rcases innerLoop_succ_cases h with ⟨w, hw, hcase⟩
    rcases hcase with ⟨rfl, rfl⟩ | ⟨hw0, hskip | hproc⟩
    · exact hw
    · exact ih _ _ hskip.2
    · rcases hproc with ⟨htest, e, he, hbite, p, hp, hrec⟩
      exact ih _ _ hrec

theorem innerLoop_ok_bounded {bift : Bift} {wi : Nat} :
    ∀ fuel (st r : EngineSt), innerLoop bift wi fuel st = some (.ok r) →
      wsBounded st.ws → wsBounded r.ws := by
  intro fuel
  induction fuel with
  | zero => intro st r h; simp [innerLoop] at h
  | succ fuel ih =>
    intro st r h hbd
    rcases innerLoop_succ_cases h with ⟨w, hw, hcase⟩
    rcases hcase with ⟨_, rfl⟩ | ⟨hw0, hskip | hproc⟩
    · exact hbd
    · exact ih _ _ hskip.2 hbd
    · rcases hproc with ⟨htest, e, he, hbite, p, hp, hrec⟩
      exact ih _ _ hrec (zip_bounded .AndNot _ _ hbd)

theorem orBit_append_singleton (out : List (Bitstring × Option Nat)) (o : Bitstring × Option Nat)
    (i k : Nat) :
    orBit (out ++ [o]) i k = (orBit out i k || bitAt o.1.bitstring i k) := by
  simp [orBit]

theorem noneCount_append (a b : List (Bitstring × Option Nat)) :
    noneCount (a ++ b) = noneCount a + noneCount b := by
  simp [noneCount, List.countP_append]

/-- Coverage invariant of the inner loop: assuming all words beyond the
current slot `wi` are already zero, each step moves bits from the working set
into the appended destination bitstring, never losing or inventing one. -/
theorem innerLoop_ok_cover {bift : Bift} {wi : Nat} (Bl : List Nat) :
    ∀ fuel (st r : EngineSt), innerLoop bift wi fuel st = some (.ok r) →
      wsBounded st.ws →
      (∀ i, wi < i → wd st.ws i = 0) →
      (∀ i k, (bitAt st.ws i k || orBit st.out i k) = bitAt Bl i k) →
      (∀ i, wi < i → wd r.ws i = 0) ∧
      (∀ i k, (bitAt r.ws i k || orBit r.out i k) = bitAt Bl i k) := by
  intro fuel
  induction fuel with
  | zero => intro st r h; simp [innerLoop] at h
  | succ fuel ih =>
    intro st r h hbd hz hcov
    rcases innerLoop_succ_cases h with ⟨w, hw, hcase⟩
    rcases hcase with ⟨_, rfl⟩ | ⟨hw0, hskip | hproc⟩
    · exact ⟨hz, hcov⟩
    · exact ih _ _ hskip.2 hbd hz hcov
    · rcases hproc with ⟨htest, e, he, hbite, p, hp, hrec⟩
      by_cases hm : min st.ws.length p.bitstring.bitstring.length ≤ wi
      · rcases innerLoop_ok_read hrec with ⟨w', hw'⟩
        rw [List.getElem?_eq_none (by simp [List.length_zipWith]; omega)] at hw'
        cases hw'
      · push_neg at hm
        have hz' : ∀ i, wi < i →
            wd (List.zipWith (fun a b => wordOp .AndNot a b) st.ws p.bitstring.bitstring) i = 0 := by
          intro i hi
          rw [wd_zipWith]
          by_cases him : i < min st.ws.length p.bitstring.bitstring.length
          · rw [if_pos him, hz i hi]
            simp [wordOp]
          · rw [if_neg him]
        have hkey : ∀ i k,
            (bitAt (List.zipWith (fun a b => wordOp .AndNot a b) st.ws p.bitstring.bitstring) i k ||
             bitAt (List.zipWith (fun a b => wordOp .And a b) st.ws p.bitstring.bitstring) i k) =
              bitAt st.ws i k := by
          intro i k
          by_cases him : i < min st.ws.length p.bitstring.bitstring.length
          · rw [bitAt_zip_lt .AndNot _ _ k him, bitAt_zip_lt .And _ _ k him]
            by_cases hk : k < 64
            · rw [wordOp_andNot_bit_lt _ _ hk, wordOp_and_bit]
              simp only [bitAt]
              cases (wd st.ws i).testBit k <;> cases (wd p.bitstring.bitstring i).testBit k <;> rfl
            · have hfb : (wd st.ws i).testBit k = false :=
                testBit_false_of_bounded (hbd i) (le_of_not_lt hk)
              rw [wordOp_andNot_bit_ge _ _ (le_of_not_lt hk), wordOp_and_bit]
              simp [bitAt, hfb]
          · rw [bitAt_zip_ge .AndNot _ _ k him, bitAt_zip_ge .And _ _ k him]
            have h0 : wd st.ws i = 0 := hz i (by omega)
            simp [bitAt, h0]
        have hcov' : ∀ i k,
            (bitAt (List.zipWith (fun a b => wordOp .AndNot a b) st.ws p.bitstring.bitstring) i k ||
             orBit (st.out ++
               [(⟨List.zipWith (fun a b => wordOp .And a b) st.ws p.bitstring.bitstring⟩,
                 if st.bfr_idx + 1 = bift.bfr_id then none else some p.next_hop)]) i k) =
              bitAt Bl i k := by
          intro i k
          rw [orBit_append_singleton, ← hcov i k, ← hkey i k]
          cases bitAt (List.zipWith (fun a b => wordOp .AndNot a b) st.ws p.bitstring.bitstring) i k <;>
            cases bitAt (List.zipWith (fun a b => wordOp .And a b) st.ws p.bitstring.bitstring) i k <;>
            cases orBit st.out i k <;> rfl
        exact ih _ _ hrec (zip_bounded .AndNot _ _ hbd) hz' hcov'

/-- Disjointness invariant of the inner loop: destinations already emitted
are pairwise disjoint and disjoint from the working set. -/
theorem innerLoop_ok_disjoint {bift : Bift} {wi : Nat} :
    ∀ fuel (st r : EngineSt), innerLoop bift wi fuel st = some (.ok r) →
      wsBounded st.ws →
      List.Pairwise
        (fun a b => ∀ i k, bitAt a.1.bitstring i k = true → bitAt b.1.bitstring i k = false)
        st.out →
      (∀ o ∈ st.out, ∀ i k, bitAt o.1.bitstring i k = true → bitAt st.ws i k = false) →
      List.Pairwise
        (fun a b => ∀ i k, bitAt a.1.bitstring i k = true → bitAt b.1.bitstring i k = false)
        r.out ∧
      (∀ o ∈ r.out, ∀ i k, bitAt o.1.bitstring i k = true → bitAt r.ws i k = false) := by
  intro fuel
  induction fuel with
  | zero => intro st r h; simp [innerLoop] at h
  | succ fuel ih =>
    intro st r h hbd hpw hdisj
    rcases innerLoop_succ_cases h with ⟨w, hw, hcase⟩
    rcases hcase with ⟨_, rfl⟩ | ⟨hw0, hskip | hproc⟩
    · exact ⟨hpw, hdisj⟩
    · exact ih _ _ hskip.2 hbd hpw hdisj
    · rcases hproc with ⟨htest, e, he, hbite, p, hp, hrec⟩
      have hnewpair : ∀ o ∈ st.out, ∀ i k, bitAt o.1.bitstring i k = true →
          bitAt (List.zipWith (fun a b => wordOp .And a b) st.ws p.bitstring.bitstring) i k = false := by
        intro o ho i k hbo
        by_contra hc
        have hc' : bitAt (List.zipWith (fun a b => wordOp .And a b) st.ws p.bitstring.bitstring) i k = true := by
          revert hc
          cases bitAt (List.zipWith (fun a b => wordOp .And a b) st.ws p.bitstring.bitstring) i k <;> simp
        have := bitAt_zip_imp .And st.ws p.bitstring.bitstring i k hc'
        rw [hdisj o ho i k hbo] at this
        cases this
      have hpw' : List.Pairwise
          (fun a b => ∀ i k, bitAt a.1.bitstring i k = true → bitAt b.1.bitstring i k = false)
          (st.out ++
            [(⟨List.zipWith (fun a b => wordOp .And a b) st.ws p.bitstring.bitstring⟩,
              if st.bfr_idx + 1 = bift.bfr_id then none else some p.next_hop)]) := by
        rw [List.pairwise_append]
        refine ⟨hpw, by simp, ?_⟩
        intro o ho x hx
        simp at hx
        subst hx
        exact hnewpair o ho
      have hdisj' : ∀ o ∈ (st.out ++
            [(⟨List.zipWith (fun a b => wordOp .And a b) st.ws p.bitstring.bitstring⟩,
              if st.bfr_idx + 1 = bift.bfr_id then none else some p.next_hop)]),
          ∀ i k, bitAt o.1.bitstring i k = true →
            bitAt (List.zipWith (fun a b => wordOp .AndNot a b) st.ws p.bitstring.bitstring) i k = false := by
        intro o ho i k hbo
        rcases List.mem_append.mp ho with ho | ho
        · by_contra hc
          have hc' : bitAt (List.zipWith (fun a b => wordOp .AndNot a b) st.ws p.bitstring.bitstring) i k = true := by
            revert hc
            cases bitAt (List.zipWith (fun a b => wordOp .AndNot a b) st.ws p.bitstring.bitstring) i k <;> simp
          have := bitAt_zip_imp .AndNot st.ws p.bitstring.bitstring i k hc'
          rw [hdisj o ho i k hbo] at this
          cases this
        · simp at ho
          subst ho
          simp only [] at hbo
          by_cases him : i < min st.ws.length p.bitstring.bitstring.length
          · rw [bitAt_zip_lt .And _ _ k him] at hbo
            rw [bitAt_zip_lt .AndNot _ _ k him]
            by_cases hk : k < 64
            · rw [wordOp_and_bit] at hbo
              rw [wordOp_andNot_bit_lt _ _ hk]
              simp at hbo
              simp [hbo.1, hbo.2]
            · have hfb : (wd st.ws i).testBit k = false :=
                testBit_false_of_bounded (hbd i) (le_of_not_lt hk)
              rw [wordOp_and_bit, hfb] at hbo
              cases hbo
          · rw [bitAt_zip_ge .And _ _ k him] at hbo
            cases hbo
      exact ih _ _ hrec (zip_bounded .AndNot _ _ hbd) hpw' hdisj'

/-- The inner loop emits at most one local-delivery pair: a `None` next hop
requires `bfr_idx + 1 = bfr_id` at push time and `bfr_idx` only grows. -/
theorem innerLoop_ok_none {bift : Bift} {wi : Nat} :
    ∀ fuel (st r : EngineSt), innerLoop bift wi fuel st = some (.ok r) →
      noneCount st.out ≤ 1 → (noneCount st.out = 1 → bift.bfr_id ≤ st.bfr_idx) →
      noneCount r.out ≤ 1 ∧ (noneCount r.out = 1 → bift.bfr_id ≤ r.bfr_idx) := by
  intro fuel
  induction fuel with
  | zero => intro st r h; simp [innerLoop] at h
  | succ fuel ih =>
    intro st r h hle hge
    rcases innerLoop_succ_cases h with ⟨w, hw, hcase⟩
    rcases hcase with ⟨_, rfl⟩ | ⟨hw0, hskip | hproc⟩
    · exact ⟨hle, hge⟩
    · exact ih _ _ hskip.2 hle (fun h1 => Nat.le_succ_of_le (hge h1))
    · rcases hproc with ⟨htest, e, he, hbite, p, hp, hrec⟩
      have hone : ∀ d : Bitstring,
          noneCount [(d, if st.bfr_idx + 1 = bift.bfr_id then none else some p.next_hop)] =
            if st.bfr_idx + 1 = bift.bfr_id then 1 else 0 := by
        intro d
        by_cases hloc : st.bfr_idx + 1 = bift.bfr_id <;> simp [noneCount, hloc]
      by_cases hloc : st.bfr_idx + 1 = bift.bfr_id
      · have hcnt0 : noneCount st.out = 0 := by
          by_contra hc
          have h1 : noneCount st.out = 1 := by omega
          have := hge h1
          omega
        have hA : noneCount (st.out ++
            [(⟨List.zipWith (fun a b => wordOp .And a b) st.ws p.bitstring.bitstring⟩,
              if st.bfr_idx + 1 = bift.bfr_id then none else some p.next_hop)]) ≤ 1 := by
          rw [noneCount_append, hone, if_pos hloc, hcnt0]
        have hB : noneCount (st.out ++
            [(⟨List.zipWith (fun a b => wordOp .And a b) st.ws p.bitstring.bitstring⟩,
              if st.bfr_idx + 1 = bift.bfr_id then none else some p.next_hop)]) = 1 →
            bift.bfr_id ≤ st.bfr_idx + 1 := fun _ => by omega
        exact ih _ _ hrec hA hB
      · have hA : noneCount (st.out ++
            [(⟨List.zipWith (fun a b => wordOp .And a b) st.ws p.bitstring.bitstring⟩,
              if st.bfr_idx + 1 = bift.bfr_id then none else some p.next_hop)]) ≤ 1 := by
          rw [noneCount_append, hone, if_neg hloc]
          omega
        have hB : noneCount (st.out ++
            [(⟨List.zipWith (fun a b => wordOp .And a b) st.ws p.bitstring.bitstring⟩,
              if st.bfr_idx + 1 = bift.bfr_id then none else some p.next_hop)]) = 1 →
            bift.bfr_id ≤ st.bfr_idx + 1 := by
          rw [noneCount_append, hone, if_neg hloc]
          intro h1
          have := hge (by omega)
          omega
        exact ih _ _ hrec hA hB

/-- Local-delivery facts of the inner loop for a single-word input processed
at word slot 0 with at most 64 BIFT entries: every emitted `None` pair was
produced at `bfr_idx = bfr_id - 1` from the local entry's first path, its
destination contained in the working set (hence in the input) masked by that
path's F-BM, and the local bit was set in the input. -/
theorem innerLoop_ok_local {bift : Bift} (B : Bitstring) (hL : bift.entries.length ≤ 64) :
    ∀ fuel (st r : EngineSt), innerLoop bift 0 fuel st = some (.ok r) →
      st.ws.length ≤ 1 →
      (∀ k, bitAt st.ws 0 k = true → bitAt B.bitstring 0 k = true) →
      localPairFacts bift B st.out →
      localPairFacts bift B r.out := by
  intro fuel
  induction fuel with
  | zero => intro st r h; simp [innerLoop] at h
  | succ fuel ih =>
    intro st r h hlen hsub hfacts
    rcases innerLoop_succ_cases h with ⟨w, hw, hcase⟩
    rcases hcase with ⟨_, rfl⟩ | ⟨hw0, hskip | hproc⟩
    · exact hfacts
    · exact ih _ _ hskip.2 hlen hsub hfacts
    · rcases hproc with ⟨htest, e, he, hbite, p, hp, hrec⟩
      have hblt : st.bfr_idx < bift.entries.length := by
        rcases List.getElem?_eq_some_iff.mp he with ⟨hh, _⟩
        exact hh
      have hlen' : (List.zipWith (fun a b => wordOp .AndNot a b) st.ws p.bitstring.bitstring).length ≤ 1 := by
        rw [List.length_zipWith]
        omega
      have hsub' : ∀ k,
          bitAt (List.zipWith (fun a b => wordOp .AndNot a b) st.ws p.bitstring.bitstring) 0 k = true →
            bitAt B.bitstring 0 k = true :=
        fun k hk => hsub k (bitAt_zip_imp .AndNot _ _ 0 k hk)
      have hfacts' : localPairFacts bift B (st.out ++
          [(⟨List.zipWith (fun a b => wordOp .And a b) st.ws p.bitstring.bitstring⟩,
            if st.bfr_idx + 1 = bift.bfr_id then none else some p.next_hop)]) := by
        intro o ho hnone
        rcases List.mem_append.mp ho with ho | ho
        · exact hfacts o ho hnone
        · simp at ho
          subst ho
          simp only [] at hnone
          by_cases hloc : st.bfr_idx + 1 = bift.bfr_id
          · have hid : bift.bfr_id - 1 = st.bfr_idx := by omega
            have hwd : wd st.ws 0 = w := by simp [wd, hw]
            have hbitw : bitAt st.ws 0 st.bfr_idx = true := by
              have hmod : st.bfr_idx % 64 = st.bfr_idx := Nat.mod_eq_of_lt (by omega)
              rw [bitAt, hwd]
              rw [hmod] at htest
              exact (word_test_iff w st.bfr_idx).mp htest
            refine ⟨by rw [hid]; exact hsub _ hbitw, e, by rw [hid]; exact he, p, hp, ?_, ?_⟩
            · intro k hk
              by_cases him : 0 < min st.ws.length p.bitstring.bitstring.length
              · rw [bitAt_zip_lt .And _ _ k him, wordOp_and_bit] at hk
                simp at hk
                exact ⟨hsub k (by rw [bitAt]; exact hk.1), by rw [bitAt]; exact hk.2⟩
              · rw [bitAt_zip_ge .And _ _ k him] at hk
                cases hk
            · intro i hi
              apply wd_large
              rw [List.length_zipWith]
              omega
          · rw [if_neg hloc] at hnone
            cases hnone
      exact ih _ _ hrec hlen' hsub' hfacts'

/-! Claim C10: `Bitstring::update` truncates to the shorter operand. -/

/-- Claim C10: for every pair of bitstrings and either operation, `update`
leaves the receiver with exactly `min` of the two word counts, the pairwise
combination of the kept words; words of the receiver beyond the shorter
operand are discarded. -/
theorem update_truncates_to_min (a b : Bitstring) (op : BitstringOp) :
    updateTruncSpec a b op := by
  constructor
  · simp [Bitstring.update, updateTruncSpec, List.length_zipWith]
  · intro i
    simpa [Bitstring.update] using wd_zipWith (wordOp op) a.bitstring b.bitstring i

/-! Claim C9: control-envelope parse. -/

/-- Claim C9: for every buffer of at least 8 bytes (so the unchecked header
reads are in bounds), `CommunicationInfo::from_slice` fails with
`SliceWrongLength` exactly when the buffer is shorter than
`8 + bitstring_length`, and on success returns the advertised fields; the
concrete S4 byte sequence parses to the advertised envelope. -/
theorem envelope_parse_correct (slice : List Nat) (_h8 : 8 ≤ slice.length) :
    envelopeParseSpec slice ∧
    CommunicationInfo.from_slice s4Bytes =
      .ok ⟨1, 36, [0, 0, 0, 0, 0, 0, 0, 0xff], [0, 4, 1, 2, 5]⟩ := by
  have key : CommunicationInfo.from_slice slice = .error .SliceWrongLength ↔
      slice.length < 4 + 2 + 2 + beU16 slice 6 := by
    by_cases hlt : slice.length < 4 + 2 + 2 + beU16 slice 6
    · simp [CommunicationInfo.from_slice, hlt]
    · simp [CommunicationInfo.from_slice, hlt]
  refine ⟨⟨key.trans (by omega), ?_⟩, by decide⟩
  intro ci hci
  by_cases hlt : slice.length < 4 + 2 + 2 + beU16 slice 6
  · simp [CommunicationInfo.from_slice, hlt] at hci
  · simp [CommunicationInfo.from_slice, hlt] at hci
    simp [← hci]

/-- Claim C9 witness: the S4 buffer instantiates the parse characterization. -/
theorem envelope_parse_correct_witness :
    envelopeParseSpec s4Bytes ∧
    CommunicationInfo.from_slice s4Bytes =
      .ok ⟨1, 36, [0, 0, 0, 0, 0, 0, 0, 0xff], [0, 4, 1, 2, 5]⟩ :=
  envelope_parse_correct s4Bytes (by decide)

/-! Claim C4: the builder's BIFT-entry `bit` fields. -/

/-- Claim C4 (code bug): the entries emitted by `get_bier_config` carry
`bit = i` at index `i` (the 0-based `bfr_id` loop variable), i.e. the `bit`
list is `range nb_nodes = [0, 1, …]`, not the 1-based `[1, 2, …]` that the
spec states and that `process_bier`'s assertion
`assert_eq!(bift_entry.bit - 1, bfr_idx as u64)` requires. -/
theorem map_bit_mk (f : Nat → List BierEntryPath) (l : List Nat) :
    (l.map fun b => ({ bit := b, paths := f b } : BiftEntry)).map BiftEntry.bit = l := by
  induction l with
  | nil => rfl
  | cons x xs ih => simp [ih]

theorem builder_entry_bits_zero_based (next_hop : List (List Nat))
    (fbm : Nat → Nat → Bitstring) (loopback : Nat → Nat) :
    (getBierConfigEntries next_hop fbm loopback).map BiftEntry.bit =
      List.range next_hop.length := by
  unfold getBierConfigEntries
  exact map_bit_mk _ _

/-! Claim C7: the `update_header_from_self` length guard. -/

set_option maxRecDepth 40000 in
/-- Claim C7 (code bug): the guard compares against `12 + words` instead of
`12 + 8·words`.  With a 1-word bitstring: a 13-byte buffer passes the guard
and the slice `header[12..20]` panics (instead of the claimed `LengthError`);
a 12-byte buffer yields the length error; a 20-byte buffer succeeds. -/
theorem update_header_guard_bug :
    Bitstring.update_header_from_self ⟨[0]⟩ (List.replicate 13 0) = .error .Panic ∧
    Bitstring.update_header_from_self ⟨[0]⟩ (List.replicate 12 0) = .error .BitstringLength ∧
    Bitstring.update_header_from_self ⟨[0]⟩ (List.replicate 20 0) =
      .ok (List.replicate 20 0) := by
  decide

/-! Claim C8: header-parse width validation. -/

set_option maxRecDepth 200000 in
/-- Claim C8 (code bug): `get_bitstring` converts the parsed word vector with
the infallible `From<Vec<u64>>`, so no width validation happens: a 524-byte
buffer with BSL = 7 parses successfully to a header whose bitstring has 64
words (512 bytes), a width rejected by `Bitstring::is_valid`; and a 20-byte
buffer with BSL = 0 (width 4 bytes) panics in the chunk-to-`u64` conversion
instead of returning an error. -/
theorem header_parse_width_not_validated :
    BierHeader.from_slice ((List.replicate 524 0).set 5 0x70) =
      .ok ⟨0, 0, false, 0, 0, 0, 7, 0, 0, 0, 0, 0, 0, ⟨List.replicate 64 0⟩⟩ ∧
    Bitstring.is_valid (8 * 64) = false ∧
    BierHeader.from_slice (List.replicate 20 0) = .error .Panic := by
  decide

/-! Termination: fuel sufficiency for the loops of `process_bier`. -/

theorem exists_testBit_lt (w : Nat) (h0 : w ≠ 0) (hb : w < 2 ^ 64) :
    ∃ pp, pp < 64 ∧ w.testBit pp = true := by
  by_contra hc
  push_neg at hc
  apply h0
  apply Nat.eq_of_testBit_eq
  intro i
  rw [Nat.zero_testBit]
  by_cases hi : i < 64
  · have := hc i hi
    cases hcc : w.testBit i
    · rfl
    · exact absurd hcc this
  · exact testBit_false_of_bounded hb (le_of_not_lt hi)

/-- Once `bfr_idx` has run past the entry table, the inner loop reaches the
set bit of the current (nonzero) word within one 64-position scan and stops
with `Err::NoEntry`; `d` is the distance to a set bit position. -/
theorem innerLoop_tail {bift : Bift} {wi : Nat} :
    ∀ d fuel (st : EngineSt) (w : Nat), d + 1 ≤ fuel →
      bift.entries.length ≤ st.bfr_idx →
      st.ws[wi]? = some w → w ≠ 0 →
      ∀ pp, pp < 64 → w.testBit pp = true → (pp + 64 - st.bfr_idx % 64) % 64 = d →
      (innerLoop bift wi fuel st).isSome = true := by
  intro d
  induction d with
  | zero =>
    intro fuel st w hfuel hL hw hw0 pp hpp hbit hd
    cases fuel with
    | zero => omega
    | succ fuel =>
      rw [innerLoop, hw]
      simp only []
      rw [if_neg hw0]
      have hmod : st.bfr_idx % 64 = pp := by omega
      have htest : (w >>> (st.bfr_idx % 64)) &&& 1 = 1 := by
        rw [hmod]
        exact (word_test_iff w pp).mpr hbit
      rw [if_pos htest, List.getElem?_eq_none hL]
      simp
  | succ d ihd =>
    intro fuel st w hfuel hL hw hw0 pp hpp hbit hd
    cases fuel with
    | zero => omega
    | succ fuel =>
      rw [innerLoop, hw]
      simp only []
      rw [if_neg hw0]
      by_cases ht : (w >>> (st.bfr_idx % 64)) &&& 1 = 1
      · rw [if_pos ht, List.getElem?_eq_none hL]
        simp
      · rw [if_neg ht]
        exact ihd fuel ⟨st.ws, st.out, st.bfr_idx + 1⟩ w (by omega) (by simp; omega) hw hw0
          pp hpp hbit (by simp; omega)

/-- Fuel sufficiency for the inner loop: `c` entries still ahead of `bfr_idx`
plus one 64-position scan plus the returning step always suffice, provided
the words are 64-bit. -/
theorem innerLoop_some {bift : Bift} {wi : Nat} :
    ∀ c fuel (st : EngineSt), c + 65 ≤ fuel →
      bift.entries.length ≤ st.bfr_idx + c →
      wsBounded st.ws →
      (innerLoop bift wi fuel st).isSome = true := by
  intro c
  induction c with
  | zero =>
    intro fuel st hfuel hL hbd
    cases fuel with
    | zero => omega
    | succ fuel =>
      rcases hw : st.ws[wi]? with _ | w
      · rw [innerLoop, hw]
        simp
      · by_cases hw0 : w = 0
        · rw [innerLoop, hw]
          simp only []
          rw [if_pos hw0]
          simp
        · have hwb : w < 2 ^ 64 := by
            have := hbd wi
            simp [wd, hw] at this
            exact this
          obtain ⟨pp, hpp, hbit⟩ := exists_testBit_lt w hw0 hwb
          have hdlt : (pp + 64 - st.bfr_idx % 64) % 64 < 64 := Nat.mod_lt _ (by norm_num)
          exact innerLoop_tail ((pp + 64 - st.bfr_idx % 64) % 64) (fuel + 1) st w (by omega)
            (by omega) hw hw0 pp hpp hbit rfl
  | succ c ihc =>
    intro fuel st hfuel hL hbd
    cases fuel with
    | zero => omega
    | succ fuel =>
      rcases hw : st.ws[wi]? with _ | w
      · rw [innerLoop, hw]
        simp
      · by_cases hw0 : w = 0
        · rw [innerLoop, hw]
          simp only []
          rw [if_pos hw0]
          simp
        · rw [innerLoop, hw]
          simp only []
          rw [if_neg hw0]
          by_cases ht : (w >>> (st.bfr_idx % 64)) &&& 1 = 1
          · rw [if_pos ht]
            rcases he : bift.entries[st.bfr_idx]? with _ | e
            · simp
            · show (if e.bit = st.bfr_idx + 1 then
                  match e.paths[0]? with
                  | none => some (Except.error Err.NoEntry)
                  | some bier_entry_path =>
                    innerLoop bift wi fuel
                      ⟨(Bitstring.update ⟨st.ws⟩ bier_entry_path.bitstring .AndNot).bitstring,
                       st.out ++ [(Bitstring.update ⟨st.ws⟩ bier_entry_path.bitstring .And,
                         if st.bfr_idx + 1 = bift.bfr_id then none
                         else some bier_entry_path.next_hop)],
                       st.bfr_idx + 1⟩
                else some (Except.error Err.Panic)).isSome = true
              by_cases hbit : e.bit = st.bfr_idx + 1
              · rw [if_pos hbit]
                rcases hp : e.paths[0]? with _ | p
                · simp
                · show (innerLoop bift wi fuel
                    ⟨List.zipWith (fun a b => wordOp .AndNot a b) st.ws p.bitstring.bitstring,
                     st.out ++ [(⟨List.zipWith (fun a b => wordOp .And a b) st.ws p.bitstring.bitstring⟩,
                       if st.bfr_idx + 1 = bift.bfr_id then none else some p.next_hop)],
                     st.bfr_idx + 1⟩).isSome = true
                  exact ihc fuel _ (by omega) (by simp; omega) (zip_bounded .AndNot _ _ hbd)
              · rw [if_neg hbit]
                simp
          · rw [if_neg ht]
            exact ihc fuel ⟨st.ws, st.out, st.bfr_idx + 1⟩ (by omega) (by simp; omega) hbd

/-- Fuel sufficiency for the outer loop: with `innerFuel` per word, the run
never exhausts its fuel (for 64-bit words). -/
theorem outerLoop_some {bift : Bift} {n : Nat} :
    ∀ (idxs : List Nat) (st : EngineSt), wsBounded st.ws →
      (outerLoop bift n idxs st).isSome = true := by
  intro idxs
  induction idxs with
  | nil =>
    intro st hbd
    simp [outerLoop]
  | cons idx rest ih =>
    intro st hbd
    rw [outerLoop]
    rcases hres : innerLoop bift (n - 1 - idx) (innerFuel bift) st with _ | res
    · have := @innerLoop_some bift (n - 1 - idx) bift.entries.length
        (innerFuel bift) st (by rw [innerFuel]) (by omega) hbd
      rw [hres] at this
      simp at this
    · cases res with
      | error e => simp
      | ok st1 =>
        simp only []
        exact ih st1 (innerLoop_ok_bounded _ _ _ hres hbd)

/-! Composition of the inner-loop invariants through the outer loop. -/

theorem outerLoop_ok_none {bift : Bift} {n : Nat} :
    ∀ (idxs : List Nat) (st r : EngineSt), outerLoop bift n idxs st = some (.ok r) →
      noneCount st.out ≤ 1 → (noneCount st.out = 1 → bift.bfr_id ≤ st.bfr_idx) →
      noneCount r.out ≤ 1 := by
  intro idxs
  induction idxs with
  | nil =>
    intro st r h hle hge
    simp [outerLoop] at h
    rw [← h]
    exact hle
  | cons idx rest ih =>
    intro st r h hle hge
    rw [outerLoop] at h
    rcases hres : innerLoop bift (n - 1 - idx) (innerFuel bift) st with _ | res
    · rw [hres] at h
      simp at h
    · rw [hres] at h
      cases res with
      | error e => simp at h
      | ok st1 =>
        simp only [] at h
        obtain ⟨h1, h2⟩ := innerLoop_ok_none _ _ _ hres hle hge
        exact ih st1 r h h1 h2

theorem outerLoop_ok_disjoint {bift : Bift} {n : Nat} :
    ∀ (idxs : List Nat) (st r : EngineSt), outerLoop bift n idxs st = some (.ok r) →
      wsBounded st.ws →
      List.Pairwise
        (fun a b => ∀ i k, bitAt a.1.bitstring i k = true → bitAt b.1.bitstring i k = false)
        st.out →
      (∀ o ∈ st.out, ∀ i k, bitAt o.1.bitstring i k = true → bitAt st.ws i k = false) →
      List.Pairwise
        (fun a b => ∀ i k, bitAt a.1.bitstring i k = true → bitAt b.1.bitstring i k = false)
        r.out := by
  intro idxs
  induction idxs with
  | nil =>
    intro st r h hbd hpw hdisj
    simp [outerLoop] at h
    rw [← h]
    exact hpw
  | cons idx rest ih =>
    intro st r h hbd hpw hdisj
    rw [outerLoop] at h
    rcases hres : innerLoop bift (n - 1 - idx) (innerFuel bift) st with _ | res
    · rw [hres] at h
      simp at h
    · rw [hres] at h
      cases res with
      | error e => simp at h
      | ok st1 =>
        simp only [] at h
        obtain ⟨h1, h2⟩ := innerLoop_ok_disjoint _ _ _ hres hbd hpw hdisj
        exact ih st1 r h (innerLoop_ok_bounded _ _ _ hres hbd) h1 h2

/-- Coverage through the outer loop, phrased on the suffix of word indices
still to process: before processing `range' (n-c) c`, all word slots at
index `≥ c` have already been cleared. -/
theorem outerLoop_ok_cover {bift : Bift} {n : Nat} (Bl : List Nat) :
    ∀ c (st r : EngineSt), c ≤ n →
      outerLoop bift n (List.range' (n - c) c) st = some (.ok r) →
      wsBounded st.ws →
      (∀ i, c ≤ i → wd st.ws i = 0) →
      (∀ i k, (bitAt st.ws i k || orBit st.out i k) = bitAt Bl i k) →
      (∀ i, wd r.ws i = 0) ∧
      (∀ i k, (bitAt r.ws i k || orBit r.out i k) = bitAt Bl i k) := by
  intro c
  induction c with
  | zero =>
    intro st r hc h hbd hz hcov
    simp [outerLoop] at h
    rw [← h]
    exact ⟨fun i => hz i (Nat.zero_le i), hcov⟩
  | succ c ihc =>
    intro st r hc h hbd hz hcov
    have harg : n - (c + 1) + 1 = n - c := by omega
    have hrw : List.range' (n - (c + 1)) (c + 1) = (n - (c + 1)) :: List.range' (n - c) c := by
      rw [List.range'_succ, harg]
    rw [hrw, outerLoop] at h
    have hslot : n - 1 - (n - (c + 1)) = c := by omega
    rw [hslot] at h
    rcases hres : innerLoop bift c (innerFuel bift) st with _ | res
    · rw [hres] at h
      simp at h
    · rw [hres] at h
      cases res with
      | error e => simp at h
      | ok st1 =>
        simp only [] at h
        obtain ⟨hz1, hcov1⟩ := innerLoop_ok_cover Bl _ _ _ hres hbd
          (fun i hi => hz i (by omega)) hcov
        have hz1' : ∀ i, c ≤ i → wd st1.ws i = 0 := by
          intro i hi
          rcases Nat.eq_or_lt_of_le hi with heq | hlt
          · have hexit := innerLoop_ok_exit _ _ _ hres
            rw [← heq]
            simp [wd, hexit]
          · exact hz1 i hlt
        exact ihc st1 r (by omega) h (innerLoop_ok_bounded _ _ _ hres hbd) hz1' hcov1

/-- Unfolding of a successful `process_bier` run down to its outer loop. -/
theorem process_ok_elim {s : BierState} {B : Bitstring} {tid : Nat}
    {out : List (Bitstring × Option Nat)}
    (hok : s.process_bier B tid = .ok out) :
    ∃ bift, s.bifts[tid - 1]? = some bift ∧ bift.bift_id = tid ∧ bift.bift_type = .Bier ∧
      ∃ stf : EngineSt, outerLoop bift B.bitstring.length (List.range B.bitstring.length)
          ⟨B.bitstring, [], 0⟩ = some (.ok stf) ∧ stf.out = out := by
  unfold BierState.process_bier processBierAux at hok
  by_cases h0 : tid = 0
  · rw [if_pos h0] at hok
    simp at hok
  · rw [if_neg h0] at hok
    rcases hb : s.bifts[tid - 1]? with _ | bift
    · rw [hb] at hok
      simp at hok
    · rw [hb] at hok
      simp only [] at hok
      by_cases hid : bift.bift_id = tid
      · rw [if_pos hid] at hok
        by_cases hty : bift.bift_type = .Bier
        · rw [if_pos hty] at hok
          rcases ho : outerLoop bift B.bitstring.length (List.range B.bitstring.length)
              ⟨B.bitstring, [], 0⟩ with _ | res
          · rw [ho] at hok
            simp at hok
          · rw [ho] at hok
            cases res with
            | error e => simp at hok
            | ok stf =>
              simp at hok
              exact ⟨bift, rfl, hid, hty, stf, ho, hok⟩
        · rw [if_neg hty] at hok
          simp at hok
      · rw [if_neg hid] at hok
        simp at hok

theorem wsBounded_single (w : Nat) (h : w < 2 ^ 64) : wsBounded [w] := by
  intro i
  cases i with
  | zero => simpa [wd] using h
  | succ i =>
    simp [wd]

theorem countP_le_one_of_pairwise (l : List (Bitstring × Option Nat)) (i k : Nat)
    (hp : List.Pairwise
      (fun a b => ∀ i k, bitAt a.1.bitstring i k = true → bitAt b.1.bitstring i k = false) l) :
    l.countP (fun o => bitAt o.1.bitstring i k) ≤ 1 := by
  induction l with
  | nil => simp
  | cons x xs ih =>
    rw [List.pairwise_cons] at hp
    by_cases hx : bitAt x.1.bitstring i k = true
    · rw [List.countP_cons_of_pos _ _ (by simpa using hx)]
      have h0 : xs.countP (fun o => bitAt o.1.bitstring i k) = 0 := by
        rw [List.countP_eq_zero]
        intro o ho
        simp [hp.1 o ho i k hx]
      omega
    · rw [List.countP_cons_of_neg _ _ (by simpa using hx)]
      exact ih hp.2

/-! Claim C1 (corrected): coverage of the forwarding engine. -/

/-- Claim C1 counterexample: a BIFT meeting all the claim's preconditions
(type BIER, one entry covering the single set bit of the input, the entry has
a path) on which `process_bier` does not succeed.  The entry's F-BM never
clears the set bit, so `bfr_idx` runs past the entry table and the engine
returns `Err::NoEntry`. -/
theorem process_bier_can_fail :
    noClearState.process_bier ⟨[1]⟩ 1 = .error .NoEntry ∧
    noClearBift.bift_type = .Bier ∧
    1 ≤ noClearBift.entries.length ∧
    noClearBift.entries.all (fun e => !e.paths.isEmpty) = true := by
  decide

/-- Claim C1 amended: whenever `process_bier` does return `Ok`, the bitwise OR
of the destination bitstrings of the returned pairs equals the input
bitstring (success itself is not guaranteed by the claim's preconditions). -/
theorem process_bier_coverage (s : BierState) (B : Bitstring) (tid : Nat)
    (out : List (Bitstring × Option Nat)) (hB : wsBounded B.bitstring)
    (hok : s.process_bier B tid = .ok out) :
    coversExactly B out := by
  obtain ⟨bift, hb, hid, hty, stf, ho, rfl⟩ := process_ok_elim hok
  have hrun : outerLoop bift B.bitstring.length
      (List.range' (B.bitstring.length - B.bitstring.length) B.bitstring.length)
      ⟨B.bitstring, [], 0⟩ = some (.ok stf) := by
    rw [Nat.sub_self, ← List.range_eq_range']
    exact ho
  obtain ⟨hz, hcov⟩ := outerLoop_ok_cover B.bitstring B.bitstring.length
    ⟨B.bitstring, [], 0⟩ stf (le_refl _) hrun hB
    (fun i hi => wd_large _ _ hi)
    (by intro i k; simp [orBit])
  intro i k
  have h1 := hcov i k
  have h2 : bitAt stf.ws i k = false := by
    simp [bitAt, hz i]
  rw [h2] at h1
  simpa using h1

/-- Claim C1 witness: the S1 scenario instantiates the amended coverage
theorem. -/
theorem process_bier_coverage_witness : coversExactly ⟨[31]⟩ dummyOut :=
  process_bier_coverage dummyState ⟨[31]⟩ 1 dummyOut
    (wsBounded_single 31 (by norm_num)) (by decide)

/-! Claim C2 (confirmed): disjointness of the forwarding engine's output. -/

/-- Claim C2: the destination bitstrings of the pairs returned by a successful
`process_bier` run are pairwise disjoint, and every bit set in the input is
set in exactly one returned destination bitstring. -/
theorem process_bier_disjoint (s : BierState) (B : Bitstring) (tid : Nat)
    (out : List (Bitstring × Option Nat)) (hB : wsBounded B.bitstring)
    (hok : s.process_bier B tid = .ok out) :
    outputsDisjoint out ∧ eachSetBitOnce B out := by
  obtain ⟨bift, hb, hid, hty, stf, ho, rfl⟩ := process_ok_elim hok
  have hpw : outputsDisjoint stf.out := by
    exact outerLoop_ok_disjoint _ _ _ ho hB (by simp) (by simp)
  refine ⟨hpw, ?_⟩
  have hrun : outerLoop bift B.bitstring.length
      (List.range' (B.bitstring.length - B.bitstring.length) B.bitstring.length)
      ⟨B.bitstring, [], 0⟩ = some (.ok stf) := by
    rw [Nat.sub_self, ← List.range_eq_range']
    exact ho
  obtain ⟨hz, hcov⟩ := outerLoop_ok_cover B.bitstring B.bitstring.length
    ⟨B.bitstring, [], 0⟩ stf (le_refl _) hrun hB
    (fun i hi => wd_large _ _ hi)
    (by intro i k; simp [orBit])
  intro i k hbk
  have h1 := hcov i k
  have h2 : bitAt stf.ws i k = false := by
    simp [bitAt, hz i]
  rw [h2, hbk] at h1
  simp at h1
  rw [orBit, List.any_eq_true] at h1
  obtain ⟨o, ho', hbo⟩ := h1
  have hge : 1 ≤ stf.out.countP (fun o => bitAt o.1.bitstring i k) :=
    List.countP_pos_iff.mpr ⟨o, ho', hbo⟩
  have hle := countP_le_one_of_pairwise stf.out i k hpw
  omega

/-- Claim C2 witness: the S1 scenario instantiates the disjointness
theorem. -/
theorem process_bier_disjoint_witness :
    outputsDisjoint dummyOut ∧ eachSetBitOnce ⟨[31]⟩ dummyOut :=
  process_bier_disjoint dummyState ⟨[31]⟩ 1 dummyOut
    (wsBounded_single 31 (by norm_num)) (by decide)

/-! Claim C3 (corrected): local delivery and the input's own bit. -/

/-- Claim C3 counterexample: on `swallowBift` (bfr_id 2, entry 1's F-BM `11`)
with input `11`, bit `bfr_id` IS set in the input, yet the returned list has
no pair with `next_hop = None`: entry 1's F-BM swallowed the local bit.  This
refutes the claimed "exactly one pair with `next_hop = None` iff bit
`T.bfr_id` is set". -/
theorem process_bier_local_iff_fails :
    swallowState.process_bier ⟨[3]⟩ 1 = .ok [(⟨[3]⟩, some 10)] ∧
    swallowBift.bfr_id = 2 ∧
    bitAt [3] 0 (swallowBift.bfr_id - 1) = true ∧
    noneCount [(⟨[3]⟩, some 10)] = 0 := by
  decide

/-- Claim C3 amended: a successful `process_bier` run returns at most one pair
with `next_hop = None`; when the input bitstring is a single 64-bit word and
the BIFT has at most 64 entries, any returned `None` pair implies that bit
`T.bfr_id` is set in the input, and its destination bitstring is contained in
the input masked by the F-BM of the local entry's first path. -/
theorem process_bier_local (s : BierState) (B : Bitstring) (tid : Nat)
    (out : List (Bitstring × Option Nat)) (hok : s.process_bier B tid = .ok out)
    (bift : Bift) (hbift : s.bifts[tid - 1]? = some bift) :
    noneCount out ≤ 1 ∧
    (B.bitstring.length = 1 → bift.entries.length ≤ 64 → localPairFacts bift B out) := by
  obtain ⟨bift', hb, hid, hty, stf, ho, rfl⟩ := process_ok_elim hok
  rw [hbift] at hb
  injection hb with hb
  subst hb
  constructor
  · exact outerLoop_ok_none _ _ _ ho (by simp [noneCount]) (by simp [noneCount])
  · intro hn1 hL
    rw [hn1] at ho
    have hr1 : List.range 1 = [0] := rfl
    rw [hr1, outerLoop] at ho
    rw [show (1 : Nat) - 1 - 0 = 0 from rfl] at ho
    rcases hres : innerLoop bift 0 (innerFuel bift) ⟨B.bitstring, [], 0⟩ with _ | res
    · rw [hres] at ho
      simp at ho
    · rw [hres] at ho
      cases res with
      | error e => simp at ho
      | ok st1 =>
        simp only [outerLoop] at ho
        simp at ho
        rw [← ho]
        exact innerLoop_ok_local B hL _ _ _ hres (by rw [hn1])
          (fun k hk => hk) (by intro o hmem; simp at hmem)

/-- Claim C3 witness: the S1 scenario instantiates the amended local-delivery
theorem (its output holds exactly one `None` pair, for the set local bit). -/
theorem process_bier_local_witness :
    noneCount dummyOut ≤ 1 ∧ localPairFacts dummyBift ⟨[31]⟩ dummyOut :=
  ⟨(process_bier_local dummyState ⟨[31]⟩ 1 dummyOut (by decide) dummyBift rfl).1,
   (process_bier_local dummyState ⟨[31]⟩ 1 dummyOut (by decide) dummyBift rfl).2 rfl
     (by norm_num [dummyBift])⟩

/-! Claim C6 (confirmed): termination of the forwarding engine. -/

/-- Claim C6: for every input bitstring with 64-bit words, every BIFT-ID and
every BIFT state, the fuelled run of `process_bier` completes within its
canonical fuel — the engine terminates, returning a result list or an error
(each iteration either clears a bit of the working word or advances
`bfr_idx`, which the entry lookup bounds via `Err::NoEntry`). -/
theorem process_bier_terminates (s : BierState) (B : Bitstring) (tid : Nat)
    (hB : wsBounded B.bitstring) :
    (processBierAux s B tid).isSome = true := by
  unfold processBierAux
  by_cases h0 : tid = 0
  · rw [if_pos h0]
    simp
  · rw [if_neg h0]
    rcases hb : s.bifts[tid - 1]? with _ | bift
    · simp
    · simp only []
      by_cases hid : bift.bift_id = tid
      · rw [if_pos hid]
        by_cases hty : bift.bift_type = .Bier
        · rw [if_pos hty]
          rcases ho : outerLoop bift B.bitstring.length (List.range B.bitstring.length)
              ⟨B.bitstring, [], 0⟩ with _ | res
          · have := @outerLoop_some bift B.bitstring.length
              (List.range B.bitstring.length) ⟨B.bitstring, [], 0⟩ hB
            rw [ho] at this
            simp at this
          · cases res <;> simp
        · rw [if_neg hty]
          simp
      · rw [if_neg hid]
        simp

/-- Claim C6 witness: the S1 scenario instantiates the termination theorem. -/
theorem process_bier_terminates_witness :
    (processBierAux dummyState ⟨[31]⟩ 1).isSome = true :=
  process_bier_terminates dummyState ⟨[31]⟩ 1 (wsBounded_single 31 (by norm_num))

/-! Claim C5: header round-trip.  The packed sub-byte fields are first
characterized in div/mod arithmetic, then each emitted byte is shown equal to
the corresponding parsed byte. -/

theorem and_mask_eq (x l m : Nat) : x &&& ((2 ^ m - 1) <<< l) = x / 2 ^ l % 2 ^ m * 2 ^ l := by
  apply Nat.eq_of_testBit_eq
  intro i
  rw [Nat.testBit_land, Nat.testBit_shiftLeft, Nat.testBit_two_pow_sub_one]
  rw [show x / 2 ^ l % 2 ^ m * 2 ^ l = (x / 2 ^ l % 2 ^ m) <<< l from (Nat.shiftLeft_eq _ _).symm]
  rw [Nat.testBit_shiftLeft, Nat.testBit_mod_two_pow]
  rw [show x / 2 ^ l = x >>> l from (Nat.shiftRight_eq_div_pow _ _).symm, Nat.testBit_shiftRight]
  by_cases hl : l ≤ i
  · rw [show l + (i - l) = i from by omega]
    simp [ge_iff_le, hl]
    cases Nat.testBit x i <;> cases hd : decide (i - l < m) <;> simp_all
  · simp [ge_iff_le, hl]

theorem and_shift_eq (x l m : Nat) : (x &&& ((2 ^ m - 1) <<< l)) >>> l = x / 2 ^ l % 2 ^ m := by
  rw [and_mask_eq, Nat.shiftRight_eq_div_pow,
    Nat.mul_div_cancel _ (Nat.pos_pow_of_pos l (by norm_num))]

theorem and_low_eq (x m : Nat) : x &&& (2 ^ m - 1) = x % 2 ^ m := by
  simp

theorem and_255 (x : Nat) : x &&& 255 = x % 256 := by
  rw [show (255 : Nat) = 2 ^ 8 - 1 by decide, and_low_eq]
  norm_num

theorem get_bift_id_eq (sl : List Nat) : get_bift_id sl = beU32 sl 0 / 2 ^ 12 % 2 ^ 20 := by
  rw [get_bift_id, show (0xfffff000 : Nat) = (2 ^ 20 - 1) <<< 12 by decide, and_shift_eq]

theorem get_tc_eq (sl : List Nat) : get_tc sl = sl.getD 2 0 / 2 % 8 := by
  rw [get_tc, show (0x0e : Nat) = (2 ^ 3 - 1) <<< 1 by decide, and_shift_eq]
  norm_num

theorem get_s_eq (sl : List Nat) : (if get_s sl then 1 else 0 : Nat) = sl.getD 2 0 % 2 := by
  have h : sl.getD 2 0 &&& 1 = sl.getD 2 0 % 2 := Nat.and_one_is_mod _
  by_cases hp : sl.getD 2 0 &&& 1 = 1
  · have hgs : get_s sl = true := decide_eq_true hp
    rw [hgs]
    simp only [if_true]
    omega
  · have hgs : get_s sl = false := decide_eq_false hp
    rw [hgs]
    simp only [Bool.false_eq_true, if_false]
    omega

theorem get_nibble_eq (sl : List Nat) : get_nibble sl = sl.getD 4 0 / 16 % 16 := by
  rw [get_nibble, show (0xf0 : Nat) = (2 ^ 4 - 1) <<< 4 by decide, and_shift_eq]
  norm_num

theorem get_version_eq (sl : List Nat) : get_version sl = sl.getD 4 0 % 16 := by
  rw [get_version, show (0xf : Nat) = 2 ^ 4 - 1 by decide, and_low_eq]
  norm_num

theorem get_bsl_eq (sl : List Nat) : get_bsl sl = sl.getD 5 0 / 16 % 16 := by
  rw [get_bsl, show (0xf0 : Nat) = (2 ^ 4 - 1) <<< 4 by decide, and_shift_eq]
  norm_num

theorem get_entropy_eq (sl : List Nat) : get_entropy sl = beU32 sl 4 % 2 ^ 20 := by
  rw [get_entropy, show (0xfffff : Nat) = 2 ^ 20 - 1 by decide, and_low_eq]

theorem get_oam_eq (sl : List Nat) : get_oam sl = sl.getD 8 0 / 64 % 4 := by
  rw [get_oam, show (0xc0 : Nat) = (2 ^ 2 - 1) <<< 6 by decide, and_shift_eq]
  norm_num

theorem get_rsv_eq (sl : List Nat) : get_rsv sl = sl.getD 8 0 / 16 % 4 := by
  rw [get_rsv, show (0x30 : Nat) = (2 ^ 2 - 1) <<< 4 by decide, and_shift_eq]
  norm_num

theorem get_dscp_eq (sl : List Nat) : get_dscp sl = beU16 sl 8 / 64 % 64 := by
  rw [get_dscp, show (0xfc0 : Nat) = (2 ^ 6 - 1) <<< 6 by decide, and_shift_eq]
  norm_num

theorem get_proto_eq (sl : List Nat) : get_proto sl = sl.getD 9 0 % 64 := by
  rw [get_proto, show (0x3f : Nat) = 2 ^ 6 - 1 by decide, and_low_eq]
  norm_num

theorem u32ToBeBytes_eq (v : Nat) :
    u32ToBeBytes v = [v / 2 ^ 24 % 256, v / 2 ^ 16 % 256, v / 2 ^ 8 % 256, v % 256] := by
  simp [u32ToBeBytes, Nat.shiftRight_eq_div_pow, and_255]

theorem u64ToBeBytes_eq (w : Nat) :
    u64ToBeBytes w = [w / 2 ^ 56 % 256, w / 2 ^ 48 % 256, w / 2 ^ 40 % 256, w / 2 ^ 32 % 256,
      w / 2 ^ 24 % 256, w / 2 ^ 16 % 256, w / 2 ^ 8 % 256, w % 256] := by
  simp [u64ToBeBytes, Nat.shiftRight_eq_div_pow, and_255]

theorem getD_bound (l : List Nat) (hb : ∀ b ∈ l, b < 256) (i : Nat) : l.getD i 0 < 256 := by
  rw [List.getD_eq_getElem?_getD]
  rcases h : l[i]? with _ | x
  · simp
  · simpa using hb x (List.getElem?_mem h)

theorem getD_take (l : List Nat) (n i : Nat) (h : i < n) : (l.take n).getD i 0 = l.getD i 0 := by
  simp [List.getD_eq_getElem?_getD, List.getElem?_take, h]

theorem pack0_eq (sl : List Nat) (hb : ∀ b ∈ sl, b < 256) :
    ((get_bift_id sl <<< 12) + (get_tc sl <<< 9) + ((if get_s sl then 1 else 0) <<< 8) +
      get_ttl sl) % 2 ^ 32 = beU32 sl 0 := by
  have h0 := getD_bound sl hb 0
  have h1 := getD_bound sl hb 1
  have h2 := getD_bound sl hb 2
  have h3 := getD_bound sl hb 3
  rw [get_bift_id_eq, get_tc_eq, get_s_eq, get_ttl, Nat.shiftLeft_eq, Nat.shiftLeft_eq,
    Nat.shiftLeft_eq]
  rw [show beU32 sl 0 =
    ((sl.getD 0 0 * 256 + sl.getD 1 0) * 256 + sl.getD 2 0) * 256 + sl.getD 3 0 from rfl]
  omega

theorem pack1_eq (sl : List Nat) (hb : ∀ b ∈ sl, b < 256) :
    ((get_nibble sl <<< 28) + (get_version sl <<< 24) + (get_bsl sl <<< 20) +
      get_entropy sl) % 2 ^ 32 = beU32 sl 4 := by
  have h4 := getD_bound sl hb 4
  have h5 := getD_bound sl hb 5
  have h6 := getD_bound sl hb 6
  have h7 := getD_bound sl hb 7
  rw [get_nibble_eq, get_version_eq, get_bsl_eq, get_entropy_eq, Nat.shiftLeft_eq,
    Nat.shiftLeft_eq, Nat.shiftLeft_eq]
  rw [show beU32 sl 4 =
    ((sl.getD 4 0 * 256 + sl.getD 5 0) * 256 + sl.getD 6 0) * 256 + sl.getD 7 0 from rfl]
  omega

theorem pack2_eq (sl : List Nat) (hb : ∀ b ∈ sl, b < 256) :
    ((get_oam sl <<< 30) + (get_rsv sl <<< 28) + (get_dscp sl <<< 22) + (get_proto sl <<< 16) +
      get_bifr_id sl) % 2 ^ 32 = beU32 sl 8 := by
  have h8 := getD_bound sl hb 8
  have h9 := getD_bound sl hb 9
  have h10 := getD_bound sl hb 10
  have h11 := getD_bound sl hb 11
  rw [get_oam_eq, get_rsv_eq, get_dscp_eq, get_proto_eq, get_bifr_id, Nat.shiftLeft_eq,
    Nat.shiftLeft_eq, Nat.shiftLeft_eq, Nat.shiftLeft_eq]
  rw [show beU32 sl 8 =
    ((sl.getD 8 0 * 256 + sl.getD 9 0) * 256 + sl.getD 10 0) * 256 + sl.getD 11 0 from rfl]
  rw [show beU16 sl 8 = sl.getD 8 0 * 256 + sl.getD 9 0 from rfl]
  rw [show beU16 sl 10 = sl.getD 10 0 * 256 + sl.getD 11 0 from rfl]
  omega

theorem u32ToBeBytes_beU32 (sl : List Nat) (o : Nat) (hb : ∀ b ∈ sl, b < 256) :
    u32ToBeBytes (beU32 sl o) =
      [sl.getD o 0, sl.getD (o + 1) 0, sl.getD (o + 2) 0, sl.getD (o + 3) 0] := by
  have h0 := getD_bound sl hb o
  have h1 := getD_bound sl hb (o + 1)
  have h2 := getD_bound sl hb (o + 2)
  have h3 := getD_bound sl hb (o + 3)
  rw [u32ToBeBytes_eq]
  simp only [beU32, List.cons.injEq, and_true]
  omega

theorem u64ToBeBytes_from (b0 b1 b2 b3 b4 b5 b6 b7 : Nat)
    (h0 : b0 < 256) (h1 : b1 < 256) (h2 : b2 < 256) (h3 : b3 < 256)
    (h4 : b4 < 256) (h5 : b5 < 256) (h6 : b6 < 256) (h7 : b7 < 256) :
    u64ToBeBytes (u64FromBeBytes b0 b1 b2 b3 b4 b5 b6 b7) = [b0, b1, b2, b3, b4, b5, b6, b7] := by
  rw [u64ToBeBytes_eq]
  simp only [u64FromBeBytes, List.cons.injEq, and_true]
  omega

theorem wordsToBytesBe_nil : wordsToBytesBe [] = [] := rfl

theorem wordsToBytesBe_cons (w : Nat) (ws : List Nat) :
    wordsToBytesBe (w :: ws) = u64ToBeBytes w ++ wordsToBytesBe ws := by
  simp [wordsToBytesBe]

theorem wordsToBytesBe_length (ws : List Nat) : (wordsToBytesBe ws).length = 8 * ws.length := by
  induction ws with
  | nil => rfl
  | cons w ws ih =>
    rw [wordsToBytesBe_cons]
    simp [ih, u64ToBeBytes]
    omega

theorem bytesToWordsBe_length :
    ∀ (bs ws : List Nat), bytesToWordsBe bs = some ws → bs.length = 8 * ws.length
  | [], ws => by
    intro h
    simp [bytesToWordsBe] at h
    subst h
    simp
  | [b0], ws => by intro h; simp [bytesToWordsBe] at h
  | [b0, b1], ws => by intro h; simp [bytesToWordsBe] at h
  | [b0, b1, b2], ws => by intro h; simp [bytesToWordsBe] at h
  | [b0, b1, b2, b3], ws => by intro h; simp [bytesToWordsBe] at h
  | [b0, b1, b2, b3, b4], ws => by intro h; simp [bytesToWordsBe] at h
  | [b0, b1, b2, b3, b4, b5], ws => by intro h; simp [bytesToWordsBe] at h
  | [b0, b1, b2, b3, b4, b5, b6], ws => by intro h; simp [bytesToWordsBe] at h
  | b0 :: b1 :: b2 :: b3 :: b4 :: b5 :: b6 :: b7 :: rest, ws => by
    intro h
    simp [bytesToWordsBe, Option.map_eq_some'] at h
    rcases h with ⟨ws', hws', hcons⟩
    have := bytesToWordsBe_length rest ws' hws'
    simp [← hcons, this]
    omega

theorem bytesToWordsBe_roundTrip :
    ∀ (bs ws : List Nat), bytesToWordsBe bs = some ws → (∀ b ∈ bs, b < 256) →
      wordsToBytesBe ws = bs
  | [], ws => by
    intro h _
    simp [bytesToWordsBe] at h
    subst h
    rfl
  | [b0], ws => by intro h _; simp [bytesToWordsBe] at h
  | [b0, b1], ws => by intro h _; simp [bytesToWordsBe] at h
  | [b0, b1, b2], ws => by intro h _; simp [bytesToWordsBe] at h
  | [b0, b1, b2, b3], ws => by intro h _; simp [bytesToWordsBe] at h
  | [b0, b1, b2, b3, b4], ws => by intro h _; simp [bytesToWordsBe] at h
  | [b0, b1, b2, b3, b4, b5], ws => by intro h _; simp [bytesToWordsBe] at h
  | [b0, b1, b2, b3, b4, b5, b6], ws => by intro h _; simp [bytesToWordsBe] at h
  | b0 :: b1 :: b2 :: b3 :: b4 :: b5 :: b6 :: b7 :: rest, ws => by
    intro h hb
    simp [bytesToWordsBe, Option.map_eq_some'] at h
    rcases h with ⟨ws', hws', hcons⟩
    have ih := bytesToWordsBe_roundTrip rest ws' hws' (fun b hb' => hb b (by simp [hb']))
    rw [← hcons, wordsToBytesBe_cons, ih]
    rw [u64ToBeBytes_from b0 b1 b2 b3 b4 b5 b6 b7 (hb b0 (by simp)) (hb b1 (by simp))
      (hb b2 (by simp)) (hb b3 (by simp)) (hb b4 (by simp)) (hb b5 (by simp))
      (hb b6 (by simp)) (hb b7 (by simp))]
    rfl

theorem twelve_decomp (l : List Nat) (h : 12 ≤ l.length) :
    l = l.getD 0 0 :: l.getD 1 0 :: l.getD 2 0 :: l.getD 3 0 :: l.getD 4 0 :: l.getD 5 0 ::
      l.getD 6 0 :: l.getD 7 0 :: l.getD 8 0 :: l.getD 9 0 :: l.getD 10 0 :: l.getD 11 0 ::
      l.drop 12 := by
  match l, h with
  | b0 :: b1 :: b2 :: b3 :: b4 :: b5 :: b6 :: b7 :: b8 :: b9 :: b10 :: b11 :: rest, _ =>
    simp [List.getD]

theorem four_le_bitstringLength (slice : List Nat) : 4 ≤ bitstringLength slice := by
  rw [bitstringLength, Nat.shiftLeft_eq, one_mul]
  have h : (2 : Nat) ^ 5 ≤ 2 ^ (get_bsl slice + 5) := Nat.pow_le_pow_right (by norm_num) (by omega)
  calc 4 = 2 ^ 5 / 8 := by norm_num
  _ ≤ 2 ^ (get_bsl slice + 5) / 8 := Nat.div_le_div_right h

/-- Claim C5: for every buffer successfully parsed by `from_slice` (with
byte-valued entries) and every destination buffer of at least
`header_length()` bytes, `to_slice` succeeds, reproduces byte-for-byte the
first `header_length()` bytes of the original buffer, and `from_slice` of
the produced bytes yields an equal header. -/
theorem header_roundtrip (buf out0 : List Nat) (h : BierHeader)
    (hbytes : ∀ b ∈ buf, b < 256)
    (hparse : BierHeader.from_slice buf = .ok h)
    (hlen : h.header_length ≤ out0.length) :
    headerRoundTrip buf out0 h := by
  unfold BierHeader.from_slice at hparse
  by_cases h20 : buf.length < BIER_MINIMUM_HEADER_LENGTH
  · rw [if_pos h20] at hparse
    simp at hparse
  · rw [if_neg h20] at hparse
    by_cases hbl : buf.length < BIER_HEADER_WITHOUT_BITSTRING_LENGTH + bitstringLength buf
    · rw [if_pos hbl] at hparse
      simp at hparse
    · rw [if_neg hbl] at hparse
      rcases hgb : get_bitstring (bslSlice buf) with e | bs
      · rw [hgb] at hparse
        simp at hparse
      · rw [hgb] at hparse
        simp only [Except.ok.injEq] at hparse
        unfold get_bitstring at hgb
        rcases hbw : bytesToWordsBe ((bslSlice buf).drop 12) with _ | ws
        · rw [hbw] at hgb
          simp at hgb
        · rw [hbw] at hgb
          simp only [Except.ok.injEq] at hgb
          subst hgb
          have h20' : ¬ buf.length < 20 := h20
          have hbl' : ¬ buf.length < 12 + bitstringLength buf := hbl
          have hslb : ∀ b ∈ bslSlice buf, b < 256 :=
            fun b hb' => hbytes b (List.take_subset _ _ hb')
          have hdropb : ∀ b ∈ (bslSlice buf).drop 12, b < 256 :=
            fun b hb' => hslb b (List.drop_subset _ _ hb')
          have hsl_len : (bslSlice buf).length = 12 + bitstringLength buf := by
            show (List.take (BIER_HEADER_WITHOUT_BITSTRING_LENGTH + bitstringLength buf)
              buf).length = 12 + bitstringLength buf
            rw [List.length_take]
            show min (12 + bitstringLength buf) buf.length = 12 + bitstringLength buf
            omega
          have hwlen : ((bslSlice buf).drop 12).length = 8 * ws.length :=
            bytesToWordsBe_length _ _ hbw
          have hdrop_len : ((bslSlice buf).drop 12).length = bitstringLength buf := by
            rw [List.length_drop, hsl_len]
            omega
          have hblw : bitstringLength buf = 8 * ws.length := by omega
          have hbl4 := four_le_bitstringLength buf
          have hW1 : 1 ≤ ws.length := by omega
          have hbi : h.bift_id = get_bift_id (bslSlice buf) := by rw [← hparse]
          have htc : h.tc = get_tc (bslSlice buf) := by rw [← hparse]
          have hsf : h.s = get_s (bslSlice buf) := by rw [← hparse]
          have httl : h.ttl = get_ttl (bslSlice buf) := by rw [← hparse]
          have hnib : h.nibble = get_nibble (bslSlice buf) := by rw [← hparse]
          have hver : h.ver = get_version (bslSlice buf) := by rw [← hparse]
          have hbslf : h.bsl = get_bsl (bslSlice buf) := by rw [← hparse]
          have hent : h.entropy = get_entropy (bslSlice buf) := by rw [← hparse]
          have hoam : h.oam = get_oam (bslSlice buf) := by rw [← hparse]
          have hrsv : h.rsv = get_rsv (bslSlice buf) := by rw [← hparse]
          have hdscp : h.dscp = get_dscp (bslSlice buf) := by rw [← hparse]
          have hproto : h.proto = get_proto (bslSlice buf) := by rw [← hparse]
          have hbfr : h.bfr_id = get_bifr_id (bslSlice buf) := by rw [← hparse]
          have hbs : h.bitstring = ⟨ws⟩ := by rw [← hparse]
          have hhl : h.header_length = 12 + bitstringLength buf := by
            rw [BierHeader.header_length, hbs]
            show 12 + ws.length * 8 = 12 + bitstringLength buf
            omega
          have hts : BierHeader.to_slice h out0 =
              .ok (u32ToBeBytes (packWord0 h) ++ u32ToBeBytes (packWord1 h) ++
                u32ToBeBytes (packWord2 h) ++ wordsToBytesBe ws ++
                out0.drop h.header_length) := by
            unfold BierHeader.to_slice
            rw [if_neg (by omega), hbs]
          have hp0 : packWord0 h = beU32 (bslSlice buf) 0 := by
            rw [packWord0, hbi, htc, hsf, httl]
            exact pack0_eq _ hslb
          have hp1 : packWord1 h = beU32 (bslSlice buf) 4 := by
            rw [packWord1, hnib, hver, hbslf, hent]
            exact pack1_eq _ hslb
          have hp2 : packWord2 h = beU32 (bslSlice buf) 8 := by
            rw [packWord2, hoam, hrsv, hdscp, hproto, hbfr]
            exact pack2_eq _ hslb
          have hA : u32ToBeBytes (packWord0 h) =
              [(bslSlice buf).getD 0 0, (bslSlice buf).getD 1 0,
               (bslSlice buf).getD 2 0, (bslSlice buf).getD 3 0] := by
            rw [hp0]
            simpa using u32ToBeBytes_beU32 (bslSlice buf) 0 hslb
          have hB : u32ToBeBytes (packWord1 h) =
              [(bslSlice buf).getD 4 0, (bslSlice buf).getD 5 0,
               (bslSlice buf).getD 6 0, (bslSlice buf).getD 7 0] := by
            rw [hp1]
            simpa using u32ToBeBytes_beU32 (bslSlice buf) 4 hslb
          have hC : u32ToBeBytes (packWord2 h) =
              [(bslSlice buf).getD 8 0, (bslSlice buf).getD 9 0,
               (bslSlice buf).getD 10 0, (bslSlice buf).getD 11 0] := by
            rw [hp2]
            simpa using u32ToBeBytes_beU32 (bslSlice buf) 8 hslb
          have hD : wordsToBytesBe ws = (bslSlice buf).drop 12 :=
            bytesToWordsBe_roundTrip _ _ hbw hdropb
          have hpre : u32ToBeBytes (packWord0 h) ++ (u32ToBeBytes (packWord1 h) ++
              (u32ToBeBytes (packWord2 h) ++ wordsToBytesBe ws)) = bslSlice buf := by
            rw [hA, hB, hC, hD]
            have h12 : 12 ≤ (bslSlice buf).length := by omega
            have hdec := twelve_decomp (bslSlice buf) h12
            simp only [List.cons_append, List.nil_append]
            exact hdec.symm
          have hrtake : (u32ToBeBytes (packWord0 h) ++ (u32ToBeBytes (packWord1 h) ++
              (u32ToBeBytes (packWord2 h) ++ (wordsToBytesBe ws ++
                out0.drop h.header_length)))).take h.header_length = bslSlice buf := by
            rw [show u32ToBeBytes (packWord0 h) ++ (u32ToBeBytes (packWord1 h) ++
                (u32ToBeBytes (packWord2 h) ++ (wordsToBytesBe ws ++
                  out0.drop h.header_length))) =
              (u32ToBeBytes (packWord0 h) ++ (u32ToBeBytes (packWord1 h) ++
                (u32ToBeBytes (packWord2 h) ++ wordsToBytesBe ws))) ++
                out0.drop h.header_length from by simp]
            rw [hpre]
            rw [show h.header_length = (bslSlice buf).length from by omega]
            exact List.take_left _ _
          have hbtake : buf.take h.header_length = bslSlice buf := by
            rw [hhl]
            rfl
          refine ⟨_, hts, ?_, ?_⟩
          · simp only [List.append_assoc]
            rw [hbtake]
            exact hrtake
          · simp only [List.append_assoc]
            have hr5 : (u32ToBeBytes (packWord0 h) ++ (u32ToBeBytes (packWord1 h) ++
                (u32ToBeBytes (packWord2 h) ++ (wordsToBytesBe ws ++
                  out0.drop h.header_length)))).getD 5 0 = (bslSlice buf).getD 5 0 := by
              have hg := getD_take (u32ToBeBytes (packWord0 h) ++ (u32ToBeBytes (packWord1 h) ++
                (u32ToBeBytes (packWord2 h) ++ (wordsToBytesBe ws ++
                  out0.drop h.header_length)))) h.header_length 5 (by omega)
              rw [hrtake] at hg
              exact hg.symm
            have hbsl_sl : get_bsl (bslSlice buf) = get_bsl buf := by
              rw [get_bsl, get_bsl]
              rw [show (bslSlice buf).getD 5 0 = buf.getD 5 0 from
                getD_take buf (BIER_HEADER_WITHOUT_BITSTRING_LENGTH + bitstringLength buf) 5
                  (by show 5 < 12 + bitstringLength buf; omega)]
            have hbsl_r : get_bsl (u32ToBeBytes (packWord0 h) ++ (u32ToBeBytes (packWord1 h) ++
                (u32ToBeBytes (packWord2 h) ++ (wordsToBytesBe ws ++
                  out0.drop h.header_length)))) = get_bsl (bslSlice buf) := by
              rw [get_bsl, get_bsl, hr5]
            have hblr : bitstringLength (u32ToBeBytes (packWord0 h) ++
                (u32ToBeBytes (packWord1 h) ++ (u32ToBeBytes (packWord2 h) ++
                  (wordsToBytesBe ws ++ out0.drop h.header_length)))) = bitstringLength buf := by
              rw [bitstringLength, bitstringLength, hbsl_r, hbsl_sl]
            have hrlen : h.header_length ≤ (u32ToBeBytes (packWord0 h) ++
                (u32ToBeBytes (packWord1 h) ++ (u32ToBeBytes (packWord2 h) ++
                  (wordsToBytesBe ws ++ out0.drop h.header_length)))).length := by
              have hg := congrArg List.length hrtake
              rw [List.length_take, hsl_len] at hg
              omega
            have hbsr : bslSlice (u32ToBeBytes (packWord0 h) ++ (u32ToBeBytes (packWord1 h) ++
                (u32ToBeBytes (packWord2 h) ++ (wordsToBytesBe ws ++
                  out0.drop h.header_length)))) = bslSlice buf := by
              show (u32ToBeBytes (packWord0 h) ++ (u32ToBeBytes (packWord1 h) ++
                (u32ToBeBytes (packWord2 h) ++ (wordsToBytesBe ws ++
                  out0.drop h.header_length)))).take
                  (12 + bitstringLength (u32ToBeBytes (packWord0 h) ++
                    (u32ToBeBytes (packWord1 h) ++ (u32ToBeBytes (packWord2 h) ++
                      (wordsToBytesBe ws ++ out0.drop h.header_length))))) = bslSlice buf
              rw [hblr, ← hhl]
              exact hrtake
            unfold BierHeader.from_slice
            rw [if_neg (by show ¬ _ < 20; omega)]
            rw [if_neg (by show ¬ _ < 12 + bitstringLength _; rw [hblr]; omega)]
            rw [hbsr]
            rw [show get_bitstring (bslSlice buf) = .ok ⟨ws⟩ from by
              unfold get_bitstring
              rw [hbw]]
            exact congrArg Except.ok hparse

/-- Claim C5 witness: the 20-byte example header of the unit tests
instantiates the round-trip theorem. -/
theorem header_roundtrip_witness :
    headerRoundTrip dummyHdrBytes (List.replicate 20 0) dummyHdr :=
  header_roundtrip dummyHdrBytes (List.replicate 20 0) dummyHdr (by decide) (by decide) (by decide)

end BierRust
